import Mathlib

/-!
# rw-bench (badger-bench): write-then-scan benchmark driver

A shallow embedding of `rw-bench/bench.go`.

Platform conventions of the embedding:
* Go `int` is the 64-bit two's complement integer (`wrapInt` reduces every
  arithmetic result into `[-2^63, 2^63)`);
* a Go `string` is a sequence of bytes, and so is the content of a `[]byte`;
* `math/rand` is an oracle: a stream of raw draws, from which `Intn n`
  returns a value in `[0, n)` and `Read` fills a buffer;
* a run-time panic and `log.Fatal` both stop the run; the state reached at
  that point is kept, so that what was executed before the stop is visible;
* entries live on a heap addressed by index; a run starts with an empty heap,
  so the heap of the final state holds exactly the entries `main` allocated,
  in the order of the `entries` slice;
* the operating system and the engines answer through an environment that
  says which fallible calls return an error; durations are not modelled.
-/

namespace BadgerBench

/-! ## Machine integers and bytes -/

/-- Go `byte`. -/
abbrev Byte := Fin 256

/-- Go `string`: an immutable sequence of bytes. -/
abbrev GoString := List Byte

/-- Reduction of a mathematical integer to the Go `int` (64-bit, wrapping). -/
def wrapInt (x : Int) : Int := (x + 2 ^ 63) % 2 ^ 64 - 2 ^ 63

/-- Go `a * b` on `int`. -/
def imul (a b : Int) : Int := wrapInt (a * b)

/-- Largest number of bytes a single allocation may have (`maxAlloc` of the Go
runtime on 64-bit platforms: 48 address bits). -/
def maxAlloc : Int := 2 ^ 48

/-- Bytes of a string literal of the source (all literals here are ASCII). -/
def lit (s : String) : GoString := s.toList.map (fun c => Fin.ofNat c.toNat)

/-! ## Command-line flags -/

/-- The package-level flag variables after `flag.Parse()`. -/
structure Flags where
  numKeys : Int
  valueSize : Int
  cpuprofile : String
  memprofile : String

/-- Source: `mil = 1000000`. -/
def mil : Int := 1000000

/-! ## fmt.Sprintf for the verb `%0Nd` -/

/-- The byte `'0' + d`. -/
def digitByte (d : Nat) : Byte := Fin.ofNat (48 + d)

/-- Decimal digits of `u`, most significant first, as written by the digit
loop of `fmt.(*fmt).fmtInteger`; `fuel` bounds the number of digits (the
loop writes into a fixed buffer; 20 digits hold every 64-bit value). -/
def decDigits : Nat → Nat → GoString
  | 0, _ => []
  | fuel + 1, u =>
    if u < 10 then [digitByte u] else decDigits fuel (u / 10) ++ [digitByte (u % 10)]

/-- Formatting of `%0<wid>d`: the digits of the magnitude, zero-extended to
the width (one less when a sign is written), then the sign. -/
def fmtInteger (wid : Nat) (v : Int) : GoString :=
  let u := v.natAbs
  let prec := if v < 0 then wid - 1 else wid
  let ds := decDigits 20 u
  let padded := List.replicate (prec - ds.length) (digitByte 0) ++ ds
  if v < 0 then Fin.ofNat 45 :: padded else padded

/-- Source: `fmt.Sprintf("vsz=%05d-k=%010d", *valueSize, k)`. -/
def sprintfKey (valueSize k : Int) : GoString :=
  lit "vsz=" ++ fmtInteger 5 valueSize ++ lit "-k=" ++ fmtInteger 10 k

/-! ## math/rand -/

/-- The pseudo-random source: a stream of raw draws and a read position. -/
structure Rand where
  src : Nat → Nat
  pos : Nat

/-- Result of `rand.Intn(n)` for `n > 0`: the next raw draw reduced into `[0, n)`. -/
def Rand.draw (r : Rand) (n : Int) : Int := (r.src r.pos : Int) % n

/-- The `n` bytes `rand.Read` writes. -/
def Rand.bytes (r : Rand) (n : Nat) : List Byte :=
  (List.range n).map (fun i => Fin.ofNat (r.src (r.pos + i)))

/-! ## Slices, entries and the store engines' data -/

/-- A `[]byte`: identity of the backing array, the array's content from the
slice's start to its capacity, and the length. `cap = buf.length`. Byte slices
are never shared between two owners in this program, so each slice carries
its array's content. -/
structure Slice where
  arr : Nat
  buf : List Byte
  len : Nat
  deriving DecidableEq

/-- Capacity of a slice. -/
def Slice.cap (s : Slice) : Nat := s.buf.length

/-- The bytes a slice denotes: `s[0:len(s)]`. -/
def Slice.bytes (s : Slice) : List Byte := s.buf.take s.len

/-- The nil slice. -/
def Slice.nil : Slice := { arr := 0, buf := [], len := 0 }

/-- The fields of `badger.Entry` this program touches. -/
structure Entry where
  Key : Slice
  Value : Slice
  Meta : Byte
  deriving DecidableEq

/-- A `*badger.Entry`: `none` is nil, `some a` the address of a heap object. -/
abbrev Ptr := Option Nat

/-- Modelled from the spec: the engines (`store.Store` over `rdb`, and
`badger.KV`) are opaque collaborators; each is an ordered map from keys to
values, held as a list with strictly ascending keys (bytewise order). -/
abbrev Store := List (List Byte × List Byte)

/-- Modelled from the spec: a put into an ordered map; a later put of an
existing key overwrites the earlier one. -/
def omPut {K V : Type} [LinearOrder K] (k : K) (v : V) : List (K × V) → List (K × V)
  | [] => [(k, v)]
  | (k', v') :: rest =>
    if k < k' then (k, v) :: (k', v') :: rest
    else if k = k' then (k, v) :: rest
    else (k', v') :: omPut k v rest

/-- Applying a sequence of puts in order. -/
def omPutAll {K V : Type} [LinearOrder K] (s : List (K × V)) (ps : List (K × V)) : List (K × V) :=
  ps.foldl (fun acc p => omPut p.1 p.2 acc) s

/-- Modelled from the spec: `rdb.WriteBatch`, an ordered accumulation of put
operations (each put copies the bytes it is given). -/
structure WriteBatch where
  puts : List (List Byte × List Byte)
  deriving DecidableEq

/-- State of an engine handle (`bdg`, `rocks`). -/
inductive Handle where
  | nil
  | opened (s : Store)
  | closed
  deriving DecidableEq

/-! ## The run: state, events, stops -/

/-- Lines written to standard output (durations are not modelled). -/
inductive Line where
  | valueSize (v : Int)
  | label (s : String)
  | numUniqueKeys (count : Int)
  | iterationTime
  | totalTime
  deriving DecidableEq

/-- The calls `main` and `createEntries` make to the operating system, the
profiler, the random source, the two engines and standard output, in the
order they are made. The two load calls carry the key/value pairs they hand
to their engine. -/
inductive Event where
  | flagParse
  | osCreate (path : String)
  | startCPUProfile
  | stopCPUProfile
  | randSeed
  | initOptions
  | removeAll (dir : String)
  | mkdirAll (dir : String)
  | newKV
  | newStore
  | createEntries
  | newWriteBatch
  | println (l : Line)
  | rocksWriteBatch (puts : List (List Byte × List Byte))
  | rocksNewIterator
  | rbDestroy
  | rocksClose
  | bdgBatchSet (kvs : List (List Byte × List Byte))
  | bdgNewIterator
  | runtimeGC
  | writeHeapProfile
  | fileClose
  | bdgClose
  deriving DecidableEq

/-- How a run stops early: `log.Fatal` (exit status 1) or a run-time panic. -/
inductive Exit where
  | fatal (msg : String)
  | panic (msg : String)
  deriving DecidableEq

/-- The environment: which of the fallible calls return an error. -/
abbrev Env := Event → Bool

/-- The program state. -/
structure World where
  rand : Rand
  heap : List Entry
  nextArr : Nat
  disk : String → Option Store
  bdg : Handle
  rocks : Handle
  deferred : List Event
  trace : List Event

/-- Result of running a piece of the program. -/
inductive Res (α : Type) where
  | ok (a : α) (w : World)
  | stop (x : Exit) (w : World)

/-- A piece of the program: a state transformer that may stop the run. -/
def Run (α : Type) : Type := World → Res α

/-- Sequencing. -/
def Run.bind {α β : Type} (m : Run α) (f : α → Run β) : Run β := fun w =>
  match m w with
  | .ok a w1 => f a w1
  | .stop x w1 => .stop x w1

instance : Monad Run where
  pure a := fun w => .ok a w
  bind := Run.bind

/-- Stop the run. -/
def halt {α : Type} (x : Exit) : Run α := fun w => .stop x w

/-- Record a call. -/
def emit (e : Event) : Run Unit := fun w => .ok () { w with trace := w.trace ++ [e] }

/-- A fallible call: records it and returns whether it failed (`err != nil`). -/
def call (env : Env) (e : Event) : Run Bool := fun w =>
  .ok (env e) { w with trace := w.trace ++ [e] }

/-- Source (`badger/y`): `y.Check(err)` is `log.Fatalf` when `err != nil`. -/
def Check (err : Bool) : Run Unit :=
  if err then halt (.fatal "y.Check") else pure ()

/-! ## Memory operations -/

/-- Source: `make([]byte, n)`: a fresh zeroed array; panics when the length is
negative or exceeds the allocation limit. -/
def makeBytes (n : Int) : Run Slice := fun w =>
  if n < 0 ∨ maxAlloc < n then .stop (.panic "makeslice: len out of range") w
  else .ok { arr := w.nextArr, buf := List.replicate n.toNat 0, len := n.toNat }
    { w with nextArr := w.nextArr + 1 }

/-- Source: `s[:n]`: panics when `n` exceeds the capacity. -/
def reslice (s : Slice) (n : Nat) : Run Slice :=
  if n ≤ s.cap then pure { s with len := n } else halt (.panic "slice bounds out of range")

/-- Source: `copy(dst, src)` with a string source: the first
`min(len(dst), len(src))` bytes of the array are overwritten. -/
def copy (dst : Slice) (src : GoString) : Slice :=
  let n := min dst.len src.length
  { dst with buf := src.take n ++ dst.buf.drop n }

/-- Source: `new(badger.Entry)`: a zero-valued entry at a fresh address. -/
def newEntry : Run Ptr := fun w =>
  .ok (some w.heap.length)
    { w with heap := w.heap ++ [{ Key := Slice.nil, Value := Slice.nil, Meta := 0 }] }

/-- Dereference of an entry pointer. -/
def load (p : Ptr) : Run Entry := fun w =>
  match p with
  | none => .stop (.panic "nil pointer dereference") w
  | some a =>
    match w.heap.get? a with
    | none => .stop (.panic "invalid address") w
    | some e => .ok e w

/-- Write through an entry pointer. -/
def store (p : Ptr) (e : Entry) : Run Unit := fun w =>
  match p with
  | none => .stop (.panic "nil pointer dereference") w
  | some a =>
    if a < w.heap.length then .ok () { w with heap := w.heap.set a e }
    else .stop (.panic "invalid address") w

/-- Source: `rand.Intn(n)`: panics unless `n > 0`. -/
def Intn (n : Int) : Run Int := fun w =>
  if n ≤ 0 then .stop (.panic "invalid argument to Intn") w
  else .ok (w.rand.draw n) { w with rand := { w.rand with pos := w.rand.pos + 1 } }

/-- Source: `rand.Read(p)`: fills the `len(p)` bytes of `p`. -/
def Read (p : Slice) : Run Slice := fun w =>
  .ok { p with buf := w.rand.bytes p.len ++ p.buf.drop p.len }
    { w with rand := { w.rand with pos := w.rand.pos + p.len } }

/-! ## The program -/

/-- The bound `fillEntry` passes to `rand.Intn`: `*numKeys * mil * 10`. -/
def intnBound (fl : Flags) : Int := imul (imul fl.numKeys mil) 10

/-- Source: `fillEntry`. The three assignments to `e.Key`, the write into
`e.Value` and the assignment to `e.Meta` are gathered into one write through
`e`; nothing between them can stop the run once `e` has been dereferenced,
except the allocation and the re-slicing, which precede it here as there. -/
def fillEntry (fl : Flags) (e : Ptr) : Run Unit := do
  let k ← Intn (intnBound fl)
  let key := sprintfKey fl.valueSize k
  let ent ← load e
  let grown ← if ent.Key.cap < key.length then makeBytes (imul 2 key.length) else pure ent.Key
  let cut ← reslice grown key.length
  let Key := copy cut key
  let Value ← Read ent.Value
  store e { Key := Key, Value := Value, Meta := 0 }

/-- Use of an engine handle: a nil or closed handle cannot be operated on. -/
def useHandle (h : Handle) : Run Store :=
  match h with
  | .opened s => pure s
  | .nil => halt (.panic "nil engine handle")
  | .closed => halt (.panic "engine used after Close")

/-- The global `rocks`. -/
def getRocks : Run Handle := fun w => .ok w.rocks w

/-- The global `bdg`. -/
def getBdg : Run Handle := fun w => .ok w.bdg w

/-- The loop of `createEntries`: `fillEntry(e); rb.Put(e.Key, e.Value)`. -/
def createLoop (fl : Flags) : List Ptr → WriteBatch → Run WriteBatch
  | [], rb => pure rb
  | e :: rest, rb => do
    fillEntry fl e
    let ent ← load e
    createLoop fl rest { puts := rb.puts ++ [(ent.Key.bytes, ent.Value.bytes)] }

/-- Source: `createEntries`. -/
def createEntries (fl : Flags) (entries : List Ptr) : Run WriteBatch := do
  emit .createEntries
  emit .newWriteBatch
  createLoop fl entries { puts := [] }

/-- Source: `os.RemoveAll(dir)`. -/
def RemoveAll (env : Env) (dir : String) : Run Bool := fun w =>
  let failed := env (.removeAll dir)
  .ok failed { w with
    trace := w.trace ++ [.removeAll dir]
    disk := if failed then w.disk else fun d => if d = dir then none else w.disk d }

/-- Source: `os.MkdirAll(dir, 0777)`. -/
def MkdirAll (env : Env) (dir : String) : Run Bool := fun w =>
  let failed := env (.mkdirAll dir)
  .ok failed { w with
    trace := w.trace ++ [.mkdirAll dir]
    disk := if failed then w.disk
      else fun d => if d = dir then some ((w.disk dir).getD []) else w.disk d }

/-- Source: `bdg, err = badger.NewKV(&opt)`: fails when the environment says
so and when the directory does not exist (Badger answers
`Invalid Dir, directory does not exist`); otherwise it opens the engine on
what the directory holds. -/
def NewKV (env : Env) (dir : String) : Run Bool := fun w =>
  let failed := env .newKV || (w.disk dir).isNone
  .ok failed { w with
    trace := w.trace ++ [.newKV]
    bdg := if failed then .nil else .opened ((w.disk dir).getD []) }

/-- Source: `rocks, err = store.NewStore("tmp/rocks")`. The `store` package is
not under `src/`: whether the open fails is left to the environment, and a
directory that is absent is opened as an empty store. -/
def NewStore (env : Env) (dir : String) : Run Bool := fun w =>
  let failed := env .newStore
  .ok failed { w with
    trace := w.trace ++ [.newStore]
    rocks := if failed then .nil else .opened ((w.disk dir).getD []) }

/-- Source: `make([]*badger.Entry, n)` (8-byte elements, all nil). -/
def makePtrs (n : Int) : Run (List Ptr) := fun w =>
  if n < 0 ∨ maxAlloc < 8 * n then .stop (.panic "makeslice: len out of range") w
  else .ok (List.replicate n.toNat none) w

/-- The allocation loop of `main`, `for i := 0; i < len(entries); i++`, with
`todo = len(entries) - i` iterations left. -/
def allocLoop (fl : Flags) : Nat → Nat → List Ptr → Run (List Ptr)
  | 0, _, entries => pure entries
  | todo + 1, i, entries => do
    let e ← newEntry
    let k ← makeBytes 22
    let v ← makeBytes fl.valueSize
    store e { Key := k, Value := v, Meta := 0 }
    allocLoop fl todo (i + 1) (entries.set i e)

/-- The counting loop `for it.SeekToFirst(); it.Valid(); it.Next()` with body
`count++`, the iterator standing before `rest`. -/
def scanLoop : Store → Int → Int
  | [], count => count
  | _ :: rest, count => scanLoop rest (wrapInt (count + 1))

/-- Source: `rocks.WriteBatch(rb)`: applies the staged puts in order. -/
def rocksWriteBatch (env : Env) (rb : WriteBatch) : Run Bool := do
  let s ← useHandle (← getRocks)
  let failed ← call env (.rocksWriteBatch rb.puts)
  if failed then pure true
  else fun w => .ok false { w with rocks := .opened (omPutAll s rb.puts) }

/-- The key and value bytes of the entries behind a slice of pointers. -/
def readEntries : List Ptr → Run (List (List Byte × List Byte))
  | [] => pure []
  | e :: rest => do
    let ent ← load e
    let kvs ← readEntries rest
    pure ((ent.Key.bytes, ent.Value.bytes) :: kvs)

/-- Source: `bdg.BatchSet(entries)`: sets every entry, in order. -/
def BatchSet (env : Env) (entries : List Ptr) : Run Bool := do
  let s ← useHandle (← getBdg)
  let kvs ← readEntries entries
  let failed ← call env (.bdgBatchSet kvs)
  if failed then pure true
  else fun w => .ok false { w with bdg := .opened (omPutAll s kvs) }

/-- Source: `rocks.Close()`: the handle is closed, its data stays on disk. -/
def rocksClose (dir : String) : Run Unit := do
  let s ← useHandle (← getRocks)
  emit .rocksClose
  fun w => .ok () { w with
    rocks := .closed, disk := fun d => if d = dir then some s else w.disk d }

/-- Source: `bdg.Close()`. -/
def bdgClose (dir : String) : Run Unit := do
  let s ← useHandle (← getBdg)
  emit .bdgClose
  fun w => .ok () { w with
    bdg := .closed, disk := fun d => if d = dir then some s else w.disk d }

/-- Source: `defer f()`. -/
def defer (e : Event) : Run Unit := fun w => .ok () { w with deferred := e :: w.deferred }

/-- Source: `main`, lines 54-63: the CPU profile block. -/
def startProfile (fl : Flags) (env : Env) : Run Unit := do
  if fl.cpuprofile ≠ "" then
    let err ← call env (.osCreate fl.cpuprofile)
    if err then halt (.fatal "could not create CPU profile: ")
    let err ← call env .startCPUProfile
    if err then halt (.fatal "could not start CPU profile: ")
    defer .stopCPUProfile

/-- Source: `main`, lines 125-135: the memory profile block. -/
def writeMemProfile (fl : Flags) (env : Env) : Run Unit := do
  if fl.memprofile ≠ "" then
    let err ← call env (.osCreate fl.memprofile)
    if err then halt (.fatal "could not create memory profile: ")
    emit .runtimeGC
    let err ← call env .writeHeapProfile
    if err then halt (.fatal "could not write memory profile: ")
    emit .fileClose

/-- Source: `main`, lines 72-81: both directories are reset and both engines
opened (`opt.Dir` is `"tmp/badger"`). The result of `os.MkdirAll` is dropped. -/
def resetAndOpen (env : Env) : Run Unit := do
  Check (← RemoveAll env "tmp/badger")
  let _ ← MkdirAll env "tmp/badger"
  let err ← NewKV env "tmp/badger"
  Check err
  Check (← RemoveAll env "tmp/rocks")
  let _ ← MkdirAll env "tmp/rocks"
  let err ← NewStore env "tmp/rocks"
  Check err

/-- Source: `main`, lines 53-81: flags, CPU profile, seed, options,
directories, engines. -/
def mainSetup (fl : Flags) (env : Env) : Run Unit := do
  emit .flagParse
  startProfile fl env
  emit .randSeed
  emit .initOptions
  resetAndOpen env

/-- Number of entries `main` asks for: `*numKeys * 1000000`. -/
def numEntries (fl : Flags) : Int := imul fl.numKeys 1000000

/-- Source: `main`, lines 83-89: the entry slice and its entries. -/
def mainAlloc (fl : Flags) : Run (List Ptr) := do
  let entries ← makePtrs (numEntries fl)
  allocLoop fl entries.length 0 entries

/-- Source: `main`, lines 92-107: load, scan and close of RocksDB. -/
def mainRocks (fl : Flags) (env : Env) (rb : WriteBatch) : Run Unit := do
  emit (.println (.valueSize fl.valueSize))
  emit (.println (.label "RocksDB:"))
  Check (← rocksWriteBatch env rb)
  let s ← useHandle (← getRocks)
  emit .rocksNewIterator
  let count := scanLoop s 0
  emit (.println (.numUniqueKeys count))
  emit (.println .iterationTime)
  emit (.println .totalTime)
  emit .rbDestroy
  rocksClose "tmp/rocks"

/-- Source: `main`, lines 109-136: load and scan of Badger, memory profile,
close. -/
def mainBadger (fl : Flags) (env : Env) (entries : List Ptr) : Run Unit := do
  emit (.println (.label "Badger:"))
  Check (← BatchSet env entries)
  let s ← useHandle (← getBdg)
  emit .bdgNewIterator
  let count := scanLoop s 0
  emit (.println (.numUniqueKeys count))
  emit (.println .iterationTime)
  emit (.println .totalTime)
  writeMemProfile fl env
  bdgClose "tmp/badger"

/-- The statements of `main`, in order. -/
def mainBody (fl : Flags) (env : Env) : Run Unit := do
  mainSetup fl env
  let entries ← mainAlloc fl
  let rb ← createEntries fl entries
  mainRocks fl env rb
  mainBadger fl env entries

/-- Source: `main`: the statements, then the deferred calls, which run when
`main` returns or panics but not after `log.Fatal`. -/
def main (fl : Flags) (env : Env) : Run Unit := fun w =>
  match mainBody fl env w with
  | .ok a w1 => .ok a { w1 with trace := w1.trace ++ w1.deferred, deferred := [] }
  | .stop (.panic m) w1 =>
    .stop (.panic m) { w1 with trace := w1.trace ++ w1.deferred, deferred := [] }
  | .stop (.fatal m) w1 => .stop (.fatal m) w1

/-- The state in which a run starts: nothing allocated, both handles nil,
and whatever a previous run left on disk. -/
def World.init (rand : Rand) (disk : String → Option Store) : World :=
  { rand := rand, heap := [], nextArr := 1, disk := disk, bdg := .nil, rocks := .nil,
    deferred := [], trace := [] }

/-! ## Closed forms of the loops and of `fillEntry` -/

/-- The key slice `fillEntry` leaves in an entry whose key slice was `old`,
when the formatted key is `key` and the next fresh array is `fresh`. -/
def filledKey (old : Slice) (key : GoString) (fresh : Nat) : Slice :=
  if old.cap < key.length then
    { arr := fresh, buf := key ++ List.replicate key.length 0, len := key.length }
  else { arr := old.arr, buf := key ++ old.buf.drop key.length, len := key.length }

/-- The entry `fillEntry` leaves behind the pointer, `ent` being what it found. -/
def filledEntry (fl : Flags) (ent : Entry) (w : World) : Entry :=
  { Key := filledKey ent.Key (sprintfKey fl.valueSize (w.rand.draw (intnBound fl))) w.nextArr
    Value := { ent.Value with
      buf := Rand.bytes { w.rand with pos := w.rand.pos + 1 } ent.Value.len
        ++ ent.Value.buf.drop ent.Value.len }
    Meta := 0 }

/-- The state `fillEntry` leaves. -/
def filledWorld (fl : Flags) (a : Nat) (ent : Entry) (w : World) : World :=
  { w with
    rand := { w.rand with pos := w.rand.pos + 1 + ent.Value.len }
    nextArr :=
      if ent.Key.cap < (sprintfKey fl.valueSize (w.rand.draw (intnBound fl))).length
      then w.nextArr + 1 else w.nextArr
    heap := w.heap.set a (filledEntry fl ent w) }

/-- The entries the allocation loop of `main` appends to the heap. -/
def allocHeap (S : Int) : Nat → Nat → List Entry
  | 0, _ => []
  | todo + 1, arr =>
    { Key := { arr := arr, buf := List.replicate 22 0, len := 22 }
      Value := { arr := arr + 1, buf := List.replicate S.toNat 0, len := S.toNat }
      Meta := 0 } :: allocHeap S todo (arr + 2)

/-- The parts of the state that only `main` itself changes. -/
def Frame (w w' : World) : Prop :=
  w'.trace = w.trace ∧ w'.bdg = w.bdg ∧ w'.rocks = w.rocks ∧ w'.disk = w.disk ∧
    w'.deferred = w.deferred

/-- The key and value bytes of the entry at an address. -/
def kvAt (heap : List Entry) (a : Nat) : List Byte × List Byte :=
  match heap[a]? with
  | some e => (e.Key.bytes, e.Value.bytes)
  | none => ([], [])

/-- The calls of `mainSetup`, in order. -/
def setupTrace (fl : Flags) : List Event :=
  [.flagParse] ++
  (if fl.cpuprofile ≠ "" then [.osCreate fl.cpuprofile, .startCPUProfile] else []) ++
  [.randSeed, .initOptions, .removeAll "tmp/badger", .mkdirAll "tmp/badger", .newKV,
    .removeAll "tmp/rocks", .mkdirAll "tmp/rocks", .newStore]

/-- The state `mainSetup` leaves when it does not stop. -/
def setupWorld (fl : Flags) (env : Env) (w : World) : World :=
  { w with
    trace := w.trace ++ setupTrace fl
    deferred := if fl.cpuprofile ≠ "" then .stopCPUProfile :: w.deferred else w.deferred
    bdg := .opened []
    rocks := .opened []
    disk := fun d =>
      if d = "tmp/rocks" then (if env (.mkdirAll "tmp/rocks") then none else some [])
      else if d = "tmp/badger" then some []
      else w.disk d }

/-- The fallible calls of `mainSetup` whose error stops the run: the checked
ones, and `os.MkdirAll("tmp/badger", 0777)`, whose error is dropped but makes
`badger.NewKV` fail on the absent directory. -/
def setupChecked (fl : Flags) : List Event :=
  (if fl.cpuprofile ≠ "" then [.osCreate fl.cpuprofile, .startCPUProfile] else []) ++
  [.removeAll "tmp/badger", .mkdirAll "tmp/badger", .newKV, .removeAll "tmp/rocks", .newStore]

/-- The calls of `mainRocks`, the batch holding `puts` and the engine `s`. -/
def rocksTrace (fl : Flags) (puts : List (List Byte × List Byte)) (s : Store) : List Event :=
  [.println (.valueSize fl.valueSize), .println (.label "RocksDB:"), .rocksWriteBatch puts,
    .rocksNewIterator, .println (.numUniqueKeys (scanLoop (omPutAll s puts) 0)),
    .println .iterationTime, .println .totalTime, .rbDestroy, .rocksClose]

/-- The calls of the memory profile block. -/
def memTrace (fl : Flags) : List Event :=
  if fl.memprofile ≠ "" then
    [.osCreate fl.memprofile, .runtimeGC, .writeHeapProfile, .fileClose]
  else []

/-- The calls of `mainBadger`, the entries holding `kvs` and the engine `s`. -/
def badgerTrace (fl : Flags) (kvs : List (List Byte × List Byte)) (s : Store) : List Event :=
  [.println (.label "Badger:"), .bdgBatchSet kvs, .bdgNewIterator,
    .println (.numUniqueKeys (scanLoop (omPutAll s kvs) 0)),
    .println .iterationTime, .println .totalTime] ++ memTrace fl ++ [.bdgClose]

/-- The calls of a run of `main` that returns, the generated entries holding
the key/value pairs `kvs`. -/
def fullTrace (fl : Flags) (kvs : List (List Byte × List Byte)) : List Event :=
  setupTrace fl ++ [.createEntries, .newWriteBatch] ++ rocksTrace fl kvs [] ++
    badgerTrace fl kvs [] ++ (if fl.cpuprofile ≠ "" then [.stopCPUProfile] else [])

/-- The state the allocation block of `main` leaves. -/
def allocWorld (fl : Flags) (w : World) : World :=
  { w with
    heap := w.heap ++ allocHeap fl.valueSize (numEntries fl).toNat w.nextArr
    nextArr := w.nextArr + 2 * (numEntries fl).toNat }

/-! ## Specification-side definitions -/

/-- Spec: `n` written in decimal, most significant digit first, left-padded
with zeros to `w` digits. -/
def zeroPadded (w n : Nat) : GoString :=
  let ds := (Nat.digits 10 n).reverse.map digitByte
  List.replicate (w - ds.length) (digitByte 0) ++ ds

/-- Spec: the key pattern `vsz=%05d-k=%010d` for a value size and an integer. -/
def keyPattern (valueSize k : Nat) : GoString :=
  lit "vsz=" ++ zeroPadded 5 valueSize ++ lit "-k=" ++ zeroPadded 10 k

/-- A decimal digit. -/
def isDigitByte (b : Byte) : Bool := decide (48 ≤ b.val) && decide (b.val ≤ 57)

/-- The number a run of decimal digits denotes. -/
def readDec (bs : List Byte) : Nat := bs.foldl (fun acc b => 10 * acc + (b.val - 48)) 0

/-- Spec: reading a key back: the digits after `vsz=` up to `-k=` are the
value size, the digits after `-k=` the integer. -/
def readKey (key : List Byte) : Option (Nat × Nat) :=
  let body := key.drop 4
  let vs := body.takeWhile isDigitByte
  let rest := body.dropWhile isDigitByte
  let ks := rest.drop 3
  if key.take 4 = lit "vsz=" ∧ vs ≠ [] ∧ rest.take 3 = lit "-k=" ∧ ks ≠ [] ∧
      ks.all isDigitByte = true then
    some (readDec vs, readDec ks)
  else none

/-! ## Concrete runs -/

/-- Flags with no profiling. -/
def plainFlags (numKeys valueSize : Int) : Flags :=
  { numKeys := numKeys, valueSize := valueSize, cpuprofile := "", memprofile := "" }

/-- A random source whose every raw draw is `c`. -/
def constRand (c : Nat) : Rand := { src := fun _ => c, pos := 0 }

/-- An environment in which no call fails. -/
def noErrors : Env := fun _ => false

/-- An environment in which `os.MkdirAll("tmp/badger", 0777)` returns an
error (say, the working directory is read-only) and no other call is made
to fail by the environment. -/
def mkdirFails : Env := fun e =>
  match e with
  | .mkdirAll "tmp/badger" => true
  | _ => false

/-- A state holding the single entry `ent`, at address 0; the next array
`make` hands out is number 100. -/
def oneEntryWorld (ent : Entry) (rand : Rand) : World :=
  { rand := rand, heap := [ent], nextArr := 100, disk := fun _ => none, bdg := .nil,
    rocks := .nil, deferred := [], trace := [] }

/-- An entry whose key buffer is too small for a key: length 2, capacity 5,
old bytes in it, and a non-zero `Meta`. -/
def smallKeyEntry : Entry :=
  { Key := { arr := 3, buf := [1, 2, 3, 4, 5], len := 2 }
    Value := { arr := 4, buf := [0, 0, 0], len := 3 }
    Meta := 9 }

/-- An entry whose key buffer is larger than a key: length and capacity 30,
every byte 255, and a non-zero `Meta`. -/
def largeKeyEntry : Entry :=
  { Key := { arr := 3, buf := List.replicate 30 255, len := 30 }
    Value := { arr := 4, buf := [0, 0, 0], len := 3 }
    Meta := 9 }

/-- A disk without the two directories. -/
def emptyDisk : String → Option Store := fun _ => none

/-- The state in which `main` calls `createEntries`, when no call has failed. -/
def stagedWorld (fl : Flags) (rand : Rand) : World :=
  allocWorld fl (setupWorld fl noErrors (World.init rand emptyDisk))

/-! ## Observations on a run's calls -/

/-- The `Num unique keys` counts a run printed, in order. -/
def printedCounts (t : List Event) : List Int :=
  t.filterMap fun e =>
    match e with
    | .println (.numUniqueKeys c) => some c
    | _ => none

/-- The batches handed to `rocks.WriteBatch`, in order. -/
def rocksLoads (t : List Event) : List (List (List Byte × List Byte)) :=
  t.filterMap fun e =>
    match e with
    | .rocksWriteBatch puts => some puts
    | _ => none

/-- The entry contents handed to `bdg.BatchSet`, in order. -/
def badgerLoads (t : List Event) : List (List (List Byte × List Byte)) :=
  t.filterMap fun e =>
    match e with
    | .bdgBatchSet kvs => some kvs
    | _ => none

/-- The key/value pairs the entries on the heap hold, by address. -/
def heapPairs (heap : List Entry) : List (List Byte × List Byte) :=
  heap.map fun e => (e.Key.bytes, e.Value.bytes)

/-- Spec: the driver's effects, engine A being RocksDB and engine B Badger. -/
inductive Effect where
  | optionsInitialised
  | removed (dir : String)
  | recreated (dir : String)
  | entriesGenerated
  | loadedA
  | scannedA
  | closedA
  | loadedB
  | scannedB
  | memProfileWritten
  | closedB
  deriving DecidableEq

/-- The effect a call stands for, if any. -/
def effectOf : Event → Option Effect
  | .initOptions => some .optionsInitialised
  | .removeAll d => some (.removed d)
  | .mkdirAll d => some (.recreated d)
  | .createEntries => some .entriesGenerated
  | .rocksWriteBatch _ => some .loadedA
  | .rocksNewIterator => some .scannedA
  | .rocksClose => some .closedA
  | .bdgBatchSet _ => some .loadedB
  | .bdgNewIterator => some .scannedB
  | .writeHeapProfile => some .memProfileWritten
  | .bdgClose => some .closedB
  | _ => none

/-- The two engines. -/
inductive Engine where
  | rocksdb
  | badger
  deriving DecidableEq

/-- The engine a call operates on, if any. -/
def engineOf : Event → Option Engine
  | .newStore => some .rocksdb
  | .newWriteBatch => some .rocksdb
  | .rocksWriteBatch _ => some .rocksdb
  | .rocksNewIterator => some .rocksdb
  | .rocksClose => some .rocksdb
  | .newKV => some .badger
  | .bdgBatchSet _ => some .badger
  | .bdgNewIterator => some .badger
  | .bdgClose => some .badger
  | _ => none

/-- The calls made before the first call `c`. -/
def callsBefore (c : Event) (t : List Event) : List Event :=
  t.takeWhile fun e => decide (e ≠ c)

/-- The calls made after the first call `c`. -/
def callsAfter (c : Event) (t : List Event) : List Event :=
  (t.dropWhile fun e => decide (e ≠ c)).drop 1

/-! ## Formatting: lengths -/

theorem decDigits_length_le_fuel (fuel u : Nat) : (decDigits fuel u).length ≤ fuel := by
  induction fuel generalizing u with
  | zero => simp [decDigits]
  | succ n ih =>
    unfold decDigits
    split
    · simp
    · have := ih (u / 10)
      simp only [List.length_append, List.length_singleton]
      omega

theorem decDigits_length_pos (fuel u : Nat) : 1 ≤ (decDigits (fuel + 1) u).length := by
  unfold decDigits
  split
  · simp
  · simp

theorem decDigits_length_le (fuel u d : Nat) (hd : 1 ≤ d) (hu : u < 10 ^ d) :
    (decDigits fuel u).length ≤ d := by
  induction fuel generalizing u d with
  | zero => simp [decDigits]
  | succ n ih =>
    unfold decDigits
    split
    · simpa using hd
    · rename_i h10
      obtain ⟨e, rfl⟩ : ∃ e, d = e + 1 := ⟨d - 1, by omega⟩
      have he : 1 ≤ e := by
        rcases Nat.eq_zero_or_pos e with h0 | h0
        · subst h0
          simp at hu
          omega
        · exact h0
      have hu2 : u / 10 < 10 ^ e := by
        rw [Nat.div_lt_iff_lt_mul (by norm_num)]
        rw [pow_succ] at hu
        exact hu
      have := ih (u / 10) e he hu2
      simp only [List.length_append, List.length_singleton]
      omega

theorem fmtInteger_length_nonneg (wid : Nat) (v : Int) (hw : 1 ≤ wid) (h0 : 0 ≤ v)
    (hv : v < 10 ^ wid) : (fmtInteger wid v).length = wid := by
  have hlt : ¬ v < 0 := by omega
  have hu : v.natAbs < 10 ^ wid := by
    have h1 : (v.natAbs : Int) = v := Int.natAbs_of_nonneg h0
    have h2 : ((v.natAbs : Nat) : Int) < ((10 ^ wid : Nat) : Int) := by
      rw [h1]
      push_cast
      exact hv
    exact_mod_cast h2
  have hlen := decDigits_length_le 20 v.natAbs wid hw hu
  simp only [fmtInteger, hlt, if_false, List.length_append, List.length_replicate]
  omega

theorem fmtInteger_length_neg (wid : Nat) (v : Int) (hw : 2 ≤ wid) (h0 : v < 0)
    (hv : -(10 ^ (wid - 1)) < v) : (fmtInteger wid v).length = wid := by
  have hu : v.natAbs < 10 ^ (wid - 1) := by
    have h1 : (v.natAbs : Int) = -v := by omega
    have h2 : ((v.natAbs : Nat) : Int) < ((10 ^ (wid - 1) : Nat) : Int) := by
      rw [h1]
      push_cast
      omega
    exact_mod_cast h2
  have hlen := decDigits_length_le 20 v.natAbs (wid - 1) (by omega) hu
  simp only [fmtInteger, h0, if_true, List.length_cons, List.length_append,
    List.length_replicate]
  omega

theorem fmtInteger_length_ge (wid : Nat) (v : Int) : wid ≤ (fmtInteger wid v).length := by
  unfold fmtInteger
  by_cases h : v < 0
  · simp only [h, if_true, List.length_cons, List.length_append, List.length_replicate]
    omega
  · simp only [h, if_false, List.length_append, List.length_replicate]
    omega

theorem fmtInteger_length_le (wid : Nat) (v : Int) (hw : wid ≤ 20) :
    (fmtInteger wid v).length ≤ 21 := by
  have := decDigits_length_le_fuel 20 v.natAbs
  unfold fmtInteger
  by_cases h : v < 0
  · simp only [h, if_true, List.length_cons, List.length_append, List.length_replicate]
    omega
  · simp only [h, if_false, List.length_append, List.length_replicate]
    omega

theorem sprintfKey_length (S k : Int) :
    (sprintfKey S k).length = 7 + (fmtInteger 5 S).length + (fmtInteger 10 k).length := by
  have h1 : (lit "vsz=").length = 4 := by decide
  have h2 : (lit "-k=").length = 3 := by decide
  unfold sprintfKey
  rw [List.length_append, List.length_append, List.length_append, h1, h2]
  omega

theorem sprintfKey_length_le (S k : Int) : (sprintfKey S k).length ≤ 49 := by
  have h1 := fmtInteger_length_le 5 S (by norm_num)
  have h2 := fmtInteger_length_le 10 k (by norm_num)
  rw [sprintfKey_length]
  omega

theorem sprintfKey_length_ge (S k : Int) : 22 ≤ (sprintfKey S k).length := by
  have h1 := fmtInteger_length_ge 5 S
  have h2 := fmtInteger_length_ge 10 k
  rw [sprintfKey_length]
  omega

theorem sprintfKey_length_eq (S k : Int) (hS : -9999 ≤ S) (hS2 : S ≤ 99999) (hk : 0 ≤ k)
    (hk2 : k < 10 ^ 10) : (sprintfKey S k).length = 22 := by
  have h2 := fmtInteger_length_nonneg 10 k (by norm_num) hk hk2
  have h1 : (fmtInteger 5 S).length = 5 := by
    by_cases h : S < 0
    · exact fmtInteger_length_neg 5 S (by norm_num) h (by norm_num; omega)
    · exact fmtInteger_length_nonneg 5 S (by norm_num) (by omega) (by norm_num; omega)
  rw [sprintfKey_length, h1, h2]

/-! ## The run: basic equations -/

@[simp] theorem bind_apply {α β : Type} (m : Run α) (f : α → Run β) (w : World) :
    (m >>= f) w = Run.bind m f w := rfl

@[simp] theorem pure_apply {α : Type} (a : α) (w : World) : (pure a : Run α) w = .ok a w := rfl

theorem fillEntry_eq (fl : Flags) (a : Nat) (w : World) (ent : Entry)
    (h : w.heap[a]? = some ent) (hb : 0 < intnBound fl) :
    fillEntry fl (some a) w = .ok () (filledWorld fl a ent w) := by
  have ha : a < w.heap.length := by
    rw [List.getElem?_eq_some] at h
    exact h.1
  have hb' : ¬ intnBound fl ≤ 0 := by omega
  unfold filledWorld filledEntry filledKey
  generalize hkey : sprintfKey fl.valueSize (w.rand.draw (intnBound fl)) = key
  have hlen : key.length ≤ 49 := by rw [← hkey]; exact sprintfKey_length_le _ _
  have hmk : imul 2 (key.length : Int) = ((2 * key.length : Nat) : Int) := by
    unfold imul wrapInt
    omega
  have hma2 : ¬ ((2 : Int) * (key.length : Int) < 0 ∨ maxAlloc < (2 : Int) * (key.length : Int)) := by
    unfold maxAlloc
    omega
  have h3 : (key.length : Int) ≤ 2 * key.length := by omega
  have h5 : ((2 : Int) * (key.length : Int)).toNat = 2 * key.length := by omega
  have h6 : key.length ≤ 2 * key.length := by omega
  have h7 : 2 * key.length - key.length = key.length := by omega
  by_cases hc : ent.Key.buf.length < key.length
  · simp [fillEntry, Run.bind, Intn, hb', load, store, h, ha, hc, hkey, makeBytes, reslice, copy,
      Read, halt, hmk, hma2, Slice.cap, h3, h5, h6, h7, List.drop_replicate]
  · have h4 : key.length ≤ ent.Key.buf.length := by omega
    simp [fillEntry, Run.bind, Intn, hb', load, store, h, ha, hc, hkey, makeBytes, reslice, copy,
      Read, halt, Slice.cap, h4]

theorem fillEntry_stop_of_bound (fl : Flags) (p : Ptr) (w : World) (hb : intnBound fl ≤ 0) :
    fillEntry fl p w = .stop (.panic "invalid argument to Intn") w := by
  simp [fillEntry, Run.bind, Intn, hb]

theorem fillEntry_ok_inv (fl : Flags) (p : Ptr) (w w' : World)
    (h : fillEntry fl p w = .ok () w') :
    0 < intnBound fl ∧ ∃ a ent, p = some a ∧ w.heap[a]? = some ent ∧
      w' = filledWorld fl a ent w := by
  by_cases hb : intnBound fl ≤ 0
  · rw [fillEntry_stop_of_bound fl p w hb] at h
    cases h
  · have hb2 : 0 < intnBound fl := by omega
    refine ⟨hb2, ?_⟩
    cases p with
    | none => simp [fillEntry, Run.bind, Intn, hb, load] at h
    | some a =>
      cases hg : w.heap[a]? with
      | none => simp [fillEntry, Run.bind, Intn, hb, load, hg] at h
      | some ent =>
        rw [fillEntry_eq fl a w ent hg hb2] at h
        cases h
        exact ⟨a, ent, rfl, hg, rfl⟩

/-! ## Allocation -/

theorem wrapInt_eq (x : Int) (h0 : -(2 ^ 63) ≤ x) (h1 : x < 2 ^ 63) : wrapInt x = x := by
  unfold wrapInt
  omega

theorem wrapInt_range (x : Int) : -(2 ^ 63) ≤ wrapInt x ∧ wrapInt x < 2 ^ 63 := by
  unfold wrapInt
  omega

theorem take_set_succ {α : Type} (l : List α) (i : Nat) (x : α) (h : i < l.length) :
    (l.set i x).take (i + 1) = l.take i ++ [x] := by
  induction l generalizing i with
  | nil => simp at h
  | cons y ys ih =>
    cases i with
    | zero => simp
    | succ j =>
      simp only [List.set_cons_succ, List.take_succ_cons, List.cons_append, List.length_cons] at *
      rw [ih j (by omega)]

theorem allocLoop_eq (fl : Flags) (hS0 : 0 ≤ fl.valueSize) (hS1 : fl.valueSize ≤ maxAlloc) :
    ∀ (todo i : Nat) (entries : List Ptr) (w : World), i + todo = entries.length →
      allocLoop fl todo i entries w =
        .ok (entries.take i ++ (List.range' w.heap.length todo).map some)
          { w with
            heap := w.heap ++ allocHeap fl.valueSize todo w.nextArr
            nextArr := w.nextArr + 2 * todo } := by
  intro todo
  induction todo with
  | zero =>
    intro i entries w h
    have : i = entries.length := by omega
    subst this
    simp [allocLoop, allocHeap]
  | succ n ih =>
    intro i entries w h
    have hS : ¬ (fl.valueSize < 0 ∨ maxAlloc < fl.valueSize) := by omega
    have h22 : ¬ ((22 : Int) < 0 ∨ maxAlloc < 22) := by unfold maxAlloc; omega
    have hi : i < entries.length := by omega
    simp only [allocLoop, bind_apply, Run.bind, newEntry, makeBytes, hS, h22, if_false, store,
      List.length_append, List.length_singleton, Nat.lt_succ_self, if_true]
    rw [ih (i + 1) (entries.set i (some w.heap.length)) _ (by simp; omega)]
    simp [take_set_succ _ _ _ hi, allocHeap, List.range'_succ]
    omega

theorem mainAlloc_eq (fl : Flags) (hL0 : 0 ≤ numEntries fl) (hL1 : 8 * numEntries fl ≤ maxAlloc)
    (hS : numEntries fl = 0 ∨ (0 ≤ fl.valueSize ∧ fl.valueSize ≤ maxAlloc)) (w : World) :
    mainAlloc fl w =
      .ok ((List.range' w.heap.length (numEntries fl).toNat).map some) (allocWorld fl w) := by
  unfold allocWorld
  have hm : ¬ (numEntries fl < 0 ∨ maxAlloc < 8 * numEntries fl) := by omega
  simp only [mainAlloc, bind_apply, Run.bind, makePtrs, hm, if_false, List.length_replicate]
  rcases hS with h0 | ⟨h1, h2⟩
  · simp [h0, allocLoop, allocHeap]
  · rw [allocLoop_eq fl h1 h2 _ 0 _ w (by simp)]
    simp

theorem mainAlloc_ok_inv (fl : Flags) (w w1 : World) (entries : List Ptr)
    (h : mainAlloc fl w = .ok entries w1) :
    0 ≤ numEntries fl ∧ 8 * numEntries fl ≤ maxAlloc ∧
      (numEntries fl = 0 ∨ (0 ≤ fl.valueSize ∧ fl.valueSize ≤ maxAlloc)) := by
  by_cases hm : numEntries fl < 0 ∨ maxAlloc < 8 * numEntries fl
  · simp [mainAlloc, Run.bind, makePtrs, hm] at h
  · refine ⟨by omega, by omega, ?_⟩
    by_cases h0 : numEntries fl = 0
    · exact Or.inl h0
    · right
      by_contra hS
      have hS2 : fl.valueSize < 0 ∨ maxAlloc < fl.valueSize := by omega
      obtain ⟨n, hn⟩ : ∃ n, (numEntries fl).toNat = n + 1 := ⟨(numEntries fl).toNat - 1, by omega⟩
      have h22 : ¬ maxAlloc < 22 := by unfold maxAlloc; omega
      simp [mainAlloc, Run.bind, makePtrs, hm, hn, allocLoop, newEntry, makeBytes, hS2, h22] at h

/-! ## Generation -/

theorem Frame.refl (w : World) : Frame w w := ⟨rfl, rfl, rfl, rfl, rfl⟩

theorem Frame.trans {w1 w2 w3 : World} (h1 : Frame w1 w2) (h2 : Frame w2 w3) : Frame w1 w3 := by
  obtain ⟨a1, a2, a3, a4, a5⟩ := h1
  obtain ⟨b1, b2, b3, b4, b5⟩ := h2
  exact ⟨b1.trans a1, b2.trans a2, b3.trans a3, b4.trans a4, b5.trans a5⟩

theorem filledWorld_frame (fl : Flags) (a : Nat) (ent : Entry) (w : World) :
    Frame w (filledWorld fl a ent w) := ⟨rfl, rfl, rfl, rfl, rfl⟩

theorem filledWorld_heap (fl : Flags) (a : Nat) (ent : Entry) (w : World) :
    (filledWorld fl a ent w).heap = w.heap.set a (filledEntry fl ent w) := rfl

theorem createLoop_eq (fl : Flags) (hb : 0 < intnBound fl) :
    ∀ (ps : List Nat) (rb : WriteBatch) (w : World),
      (∀ a ∈ ps, a < w.heap.length) → ps.Nodup →
      ∃ w', createLoop fl (ps.map some) rb w
          = .ok { puts := rb.puts ++ ps.map (kvAt w'.heap) } w' ∧
        Frame w w' ∧ w'.heap.length = w.heap.length ∧
        (∀ a, a ∉ ps → w'.heap[a]? = w.heap[a]?) ∧
        (∀ a ∈ ps, ∃ ent w0, w.heap[a]? = some ent ∧
          w'.heap[a]? = some (filledEntry fl ent w0)) := by
  intro ps
  induction ps with
  | nil =>
    intro rb w _ _
    exact ⟨w, by simp [createLoop], Frame.refl w, rfl, fun _ _ => rfl, by simp⟩
  | cons a rest ih =>
    intro rb w hv hnd
    have ha : a < w.heap.length := hv a (List.mem_cons_self a rest)
    have hget : w.heap[a]? = some w.heap[a] := List.getElem?_eq_getElem ha
    have hnd2 : rest.Nodup := (List.nodup_cons.mp hnd).2
    have hnot : a ∉ rest := (List.nodup_cons.mp hnd).1
    have hfill := fillEntry_eq fl a w w.heap[a] hget hb
    have hload : load (some a) (filledWorld fl a w.heap[a] w)
        = .ok (filledEntry fl w.heap[a] w) (filledWorld fl a w.heap[a] w) := by
      simp [load, filledWorld_heap, ha]
    obtain ⟨w', hrun, hfr, hlen, hout, hin⟩ :=
      ih { puts := rb.puts ++ [((filledEntry fl w.heap[a] w).Key.bytes,
              (filledEntry fl w.heap[a] w).Value.bytes)] }
        (filledWorld fl a w.heap[a] w)
        (by
          intro b hbm
          rw [filledWorld_heap, List.length_set]
          exact hv b (List.mem_cons_of_mem a hbm))
        hnd2
    have hkeep : w'.heap[a]? = some (filledEntry fl w.heap[a] w) := by
      rw [hout a hnot, filledWorld_heap]
      simp [ha]
    refine ⟨w', ?_, Frame.trans (filledWorld_frame fl a _ w) hfr, ?_, ?_, ?_⟩
    · simp only [List.map_cons, createLoop, bind_apply, Run.bind, hfill, hload, hrun]
      simp [kvAt, hkeep]
    · rw [hlen, filledWorld_heap, List.length_set]
    · intro b hbn
      have hba : b ≠ a := fun h => hbn (h ▸ List.mem_cons_self a rest)
      have hbr : b ∉ rest := fun h => hbn (List.mem_cons_of_mem a h)
      rw [hout b hbr, filledWorld_heap, List.getElem?_set_ne (Ne.symm hba)]
    · intro b hbm
      rcases List.mem_cons.mp hbm with rfl | hbr
      · exact ⟨w.heap[b], w, hget, hkeep⟩
      · obtain ⟨ent, w0, h1, h2⟩ := hin b hbr
        have hba : b ≠ a := fun h => hnot (h ▸ hbr)
        rw [filledWorld_heap, List.getElem?_set_ne (Ne.symm hba)] at h1
        exact ⟨ent, w0, h1, h2⟩

/-! ## Setup -/

theorem startProfile_ok_iff (fl : Flags) (env : Env) (w w1 : World) :
    startProfile fl env w = .ok () w1 ↔
      (fl.cpuprofile ≠ "" → env (.osCreate fl.cpuprofile) = false ∧ env .startCPUProfile = false) ∧
      w1 = { w with
        trace := w.trace ++
          (if fl.cpuprofile ≠ "" then [.osCreate fl.cpuprofile, .startCPUProfile] else [])
        deferred := if fl.cpuprofile ≠ "" then .stopCPUProfile :: w.deferred else w.deferred } := by
  by_cases hc : fl.cpuprofile = ""
  · simp [startProfile, hc]
    exact eq_comm
  · cases h1 : env (.osCreate fl.cpuprofile) <;> cases h2 : env .startCPUProfile <;>
      simp [startProfile, Run.bind, call, halt, defer, hc, h1, h2]
    exact eq_comm

theorem resetAndOpen_eq (env : Env) (w : World)
    (h3 : env (.removeAll "tmp/badger") = false) (h7 : env (.mkdirAll "tmp/badger") = false)
    (h4 : env .newKV = false)
    (h5 : env (.removeAll "tmp/rocks") = false) (h6 : env .newStore = false) :
    resetAndOpen env w =
    .ok () { w with
      trace := w.trace ++ [.removeAll "tmp/badger", .mkdirAll "tmp/badger", .newKV,
        .removeAll "tmp/rocks", .mkdirAll "tmp/rocks", .newStore]
      bdg := .opened []
      rocks := .opened []
      disk := fun d =>
        if d = "tmp/rocks" then (if env (.mkdirAll "tmp/rocks") then none else some [])
        else if d = "tmp/badger" then some []
        else w.disk d } := by
  cases h8 : env (.mkdirAll "tmp/rocks") <;>
    simp [resetAndOpen, Run.bind, Check, halt, RemoveAll, MkdirAll, NewKV, NewStore,
      h3, h4, h5, h6, h7, h8] <;>
    funext d <;> by_cases hd1 : d = "tmp/rocks" <;> by_cases hd2 : d = "tmp/badger" <;>
    simp [hd1, hd2]

theorem resetAndOpen_stop (env : Env) (w : World)
    (h : ¬ (env (.removeAll "tmp/badger") = false ∧ env (.mkdirAll "tmp/badger") = false ∧
      env .newKV = false ∧ env (.removeAll "tmp/rocks") = false ∧ env .newStore = false)) :
    ∃ w1, resetAndOpen env w = .stop (.fatal "y.Check") w1 := by
  cases h3 : env (.removeAll "tmp/badger") <;> cases h7 : env (.mkdirAll "tmp/badger") <;>
    cases h4 : env .newKV <;>
    cases h5 : env (.removeAll "tmp/rocks") <;> cases h6 : env .newStore <;>
    simp [h3, h4, h5, h6, h7] at h <;>
    simp [resetAndOpen, Run.bind, Check, halt, RemoveAll, MkdirAll, NewKV, NewStore,
      h3, h4, h5, h6, h7]

theorem mainSetup_ok_iff (fl : Flags) (env : Env) (w w1 : World) :
    mainSetup fl env w = .ok () w1 ↔
      (∀ e ∈ setupChecked fl, env e = false) ∧ w1 = setupWorld fl env w := by
  have hmem : (∀ e ∈ setupChecked fl, env e = false) ↔
      (fl.cpuprofile ≠ "" →
        env (.osCreate fl.cpuprofile) = false ∧ env .startCPUProfile = false) ∧
      (env (.removeAll "tmp/badger") = false ∧ env (.mkdirAll "tmp/badger") = false ∧
        env .newKV = false ∧ env (.removeAll "tmp/rocks") = false ∧ env .newStore = false) := by
    by_cases hc : fl.cpuprofile = "" <;> simp [setupChecked, hc, and_assoc]
  rw [hmem]
  cases hp : startProfile fl env { w with trace := w.trace ++ [.flagParse] } with
  | stop x w2 =>
    have hno : ¬ (fl.cpuprofile ≠ "" →
        env (.osCreate fl.cpuprofile) = false ∧ env .startCPUProfile = false) := by
      intro hq
      have := (startProfile_ok_iff fl env { w with trace := w.trace ++ [.flagParse] } _).mpr
        ⟨hq, rfl⟩
      rw [hp] at this
      cases this
    simp only [mainSetup, bind_apply, Run.bind, emit, hp]
    constructor
    · intro h
      cases h
    · intro h
      exact absurd h.1.1 hno
  | ok u w2 =>
    obtain ⟨hq, hw2⟩ := (startProfile_ok_iff fl env _ w2).mp hp
    by_cases hd : env (.removeAll "tmp/badger") = false ∧ env (.mkdirAll "tmp/badger") = false ∧
        env .newKV = false ∧ env (.removeAll "tmp/rocks") = false ∧ env .newStore = false
    · obtain ⟨h3, h7, h4, h5, h6⟩ := hd
      simp only [mainSetup, bind_apply, Run.bind, emit, hp,
        resetAndOpen_eq env _ h3 h7 h4 h5 h6]
      subst hw2
      by_cases hc : fl.cpuprofile = "" <;>
        simp [setupWorld, setupTrace, hc, hq, h3, h4, h5, h6, h7] <;> exact eq_comm
    · obtain ⟨w3, h3⟩ := resetAndOpen_stop env
        { w2 with trace := w2.trace ++ [.randSeed] ++ [.initOptions] } hd
      simp only [mainSetup, bind_apply, Run.bind, emit, hp]
      constructor
      · intro h
        rw [h3] at h
        cases h
      · intro h
        exact absurd h.1.2 hd

/-! ## Load and scan -/

theorem readEntries_eq (ps : List Nat) (w : World) (hv : ∀ a ∈ ps, a < w.heap.length) :
    readEntries (ps.map some) w = .ok (ps.map (kvAt w.heap)) w := by
  induction ps with
  | nil => simp [readEntries]
  | cons a rest ih =>
    have ha : a < w.heap.length := hv a (List.mem_cons_self a rest)
    have ih2 := ih (fun b hb => hv b (List.mem_cons_of_mem a hb))
    simp [readEntries, Run.bind, load, ha, ih2, kvAt]

theorem mainRocks_eq (fl : Flags) (env : Env) (rb : WriteBatch) (w : World) (s : Store)
    (hs : w.rocks = .opened s) (he : env (.rocksWriteBatch rb.puts) = false) :
    mainRocks fl env rb w = .ok () { w with
      trace := w.trace ++ rocksTrace fl rb.puts s
      rocks := .closed
      disk := fun d => if d = "tmp/rocks" then some (omPutAll s rb.puts) else w.disk d } := by
  simp [mainRocks, Run.bind, emit, call, Check, halt, rocksWriteBatch, rocksClose, getRocks,
    useHandle, hs, he, rocksTrace]

theorem mainRocks_stop (fl : Flags) (env : Env) (rb : WriteBatch) (w : World) (s : Store)
    (hs : w.rocks = .opened s) (he : env (.rocksWriteBatch rb.puts) = true) :
    ∃ w1, mainRocks fl env rb w = .stop (.fatal "y.Check") w1 := by
  simp [mainRocks, Run.bind, emit, call, Check, halt, rocksWriteBatch, rocksClose, getRocks,
    useHandle, hs, he]

theorem writeMemProfile_ok_iff (fl : Flags) (env : Env) (w w1 : World) :
    writeMemProfile fl env w = .ok () w1 ↔
      (fl.memprofile ≠ "" → env (.osCreate fl.memprofile) = false ∧ env .writeHeapProfile = false) ∧
      w1 = { w with trace := w.trace ++ memTrace fl } := by
  by_cases hc : fl.memprofile = ""
  · simp [writeMemProfile, memTrace, hc]
    exact eq_comm
  · cases h1 : env (.osCreate fl.memprofile) <;> cases h2 : env .writeHeapProfile <;>
      simp [writeMemProfile, memTrace, Run.bind, call, halt, emit, hc, h1, h2]
    exact eq_comm

theorem mainBadger_ok_iff (fl : Flags) (env : Env) (ps : List Nat) (w w1 : World) (s : Store)
    (hs : w.bdg = .opened s) (hv : ∀ a ∈ ps, a < w.heap.length) :
    mainBadger fl env (ps.map some) w = .ok () w1 ↔
      (env (.bdgBatchSet (ps.map (kvAt w.heap))) = false ∧
        (fl.memprofile ≠ "" →
          env (.osCreate fl.memprofile) = false ∧ env .writeHeapProfile = false)) ∧
      w1 = { w with
        trace := w.trace ++ badgerTrace fl (ps.map (kvAt w.heap)) s
        bdg := .closed
        disk := fun d =>
          if d = "tmp/badger" then some (omPutAll s (ps.map (kvAt w.heap))) else w.disk d } := by
  have hr : ∀ r n d b k df t,
      readEntries (ps.map some)
        { rand := r, heap := w.heap, nextArr := n, disk := d, bdg := b, rocks := k,
          deferred := df, trace := t }
      = .ok (ps.map (kvAt w.heap))
        { rand := r, heap := w.heap, nextArr := n, disk := d, bdg := b, rocks := k,
          deferred := df, trace := t } := by
    intro r n d b k df t
    exact readEntries_eq ps _ hv
  cases he : env (.bdgBatchSet (ps.map (kvAt w.heap)))
  · simp only [mainBadger, bind_apply, Run.bind, emit, BatchSet, getBdg, useHandle, hs, pure_apply,
      hr, call, he, Check, Bool.false_eq_true, if_false]
    constructor
    · intro h
      split at h
      · rename_i a w2 hm
        obtain ⟨hq, hw2⟩ := (writeMemProfile_ok_iff fl env _ w2).mp hm
        subst hw2
        simp [bdgClose, Run.bind, getBdg, useHandle, emit] at h
        refine ⟨⟨trivial, hq⟩, ?_⟩
        rw [← h]
        simp [badgerTrace]
      · cases h
    · rintro ⟨⟨_, hq⟩, rfl⟩
      rw [(writeMemProfile_ok_iff fl env _ _).mpr ⟨hq, rfl⟩]
      simp [bdgClose, Run.bind, getBdg, useHandle, emit, badgerTrace]
  · simp [mainBadger, Run.bind, emit, BatchSet, getBdg, useHandle, hs, hr, call, he, Check,
      halt]

/-! ## The whole run -/

theorem bind_ok_iff {α β : Type} (m : Run α) (f : α → Run β) (w w' : World) (b : β) :
    Run.bind m f w = .ok b w' ↔ ∃ a w1, m w = .ok a w1 ∧ f a w1 = .ok b w' := by
  unfold Run.bind
  cases m w with
  | ok a w1 =>
    constructor
    · intro h
      exact ⟨a, w1, rfl, h⟩
    · rintro ⟨a2, w2, h1, h2⟩
      cases h1
      exact h2
  | stop x w1 => simp

theorem intnBound_eq (fl : Flags) (h0 : 0 ≤ numEntries fl) (h1 : 8 * numEntries fl ≤ maxAlloc) :
    intnBound fl = 10 * numEntries fl := by
  unfold intnBound
  have : imul fl.numKeys mil = numEntries fl := rfl
  rw [this]
  unfold maxAlloc at h1
  unfold imul
  rw [wrapInt_eq _ (by omega) (by omega)]
  omega

theorem createEntries_eq (fl : Flags) (ps : List Nat) (w : World)
    (hb : ps ≠ [] → 0 < intnBound fl) (hv : ∀ a ∈ ps, a < w.heap.length) (hnd : ps.Nodup) :
    ∃ w', createEntries fl (ps.map some) w = .ok { puts := ps.map (kvAt w'.heap) } w' ∧
      w'.trace = w.trace ++ [.createEntries, .newWriteBatch] ∧
      w'.bdg = w.bdg ∧ w'.rocks = w.rocks ∧ w'.disk = w.disk ∧ w'.deferred = w.deferred ∧
      w'.heap.length = w.heap.length ∧
      (∀ a, a ∉ ps → w'.heap[a]? = w.heap[a]?) ∧
      (∀ a ∈ ps, ∃ ent w0, w.heap[a]? = some ent ∧
        w'.heap[a]? = some (filledEntry fl ent w0)) := by
  cases ps with
  | nil =>
    refine ⟨{ w with trace := w.trace ++ [.createEntries, .newWriteBatch] }, ?_, rfl, rfl, rfl,
      rfl, rfl, rfl, fun _ _ => rfl, by simp⟩
    simp [createEntries, Run.bind, emit, createLoop]
  | cons a rest =>
    have hb2 := hb (by simp)
    obtain ⟨w', hrun, ⟨f1, f2, f3, f4, f5⟩, hlen, hout, hin⟩ :=
      createLoop_eq fl hb2 (a :: rest) { puts := [] }
        { w with trace := w.trace ++ [.createEntries] ++ [.newWriteBatch] } hv hnd
    refine ⟨w', ?_, ?_, f2, f3, f4, f5, hlen, hout, hin⟩
    · simp only [createEntries, bind_apply, Run.bind, emit]
      rw [hrun]
      simp
    · rw [f1]
      simp

theorem allocHeap_length (S : Int) (n arr : Nat) : (allocHeap S n arr).length = n := by
  induction n generalizing arr with
  | zero => rfl
  | succ k ih => simp [allocHeap, ih]

theorem allocHeap_get (S : Int) (n arr a : Nat) (h : a < n) :
    (allocHeap S n arr)[a]? = some
      { Key := { arr := arr + 2 * a, buf := List.replicate 22 0, len := 22 }
        Value := { arr := arr + 2 * a + 1, buf := List.replicate S.toNat 0, len := S.toNat }
        Meta := 0 } := by
  induction n generalizing arr a with
  | zero => omega
  | succ k ih =>
    cases a with
    | zero => simp [allocHeap]
    | succ b =>
      simp only [allocHeap, List.getElem?_cons_succ]
      rw [ih (arr + 2) b (by omega)]
      have e1 : arr + 2 + 2 * b = arr + 2 * (b + 1) := by omega
      rw [e1]

theorem main_ok_inv (fl : Flags) (env : Env) (rand : Rand) (disk : String → Option Store)
    (w' : World) (h : main fl env (World.init rand disk) = .ok () w') :
    0 ≤ numEntries fl ∧ 8 * numEntries fl ≤ maxAlloc ∧
      (numEntries fl = 0 ∨ (0 ≤ fl.valueSize ∧ fl.valueSize ≤ maxAlloc)) ∧
      w'.heap.length = (numEntries fl).toNat ∧
      w'.trace = fullTrace fl ((List.range (numEntries fl).toNat).map (kvAt w'.heap)) ∧
      (∀ a, a < (numEntries fl).toNat → ∃ ent w0,
        (allocHeap fl.valueSize (numEntries fl).toNat 1)[a]? = some ent ∧
        w'.heap[a]? = some (filledEntry fl ent w0)) := by
  unfold main at h
  cases hb : mainBody fl env (World.init rand disk) with
  | stop x w1 =>
    rw [hb] at h
    cases x <;> cases h
  | ok u w5 =>
    rw [hb] at h
    simp only [Res.ok.injEq, true_and] at h
    simp only [mainBody, bind_apply, bind_ok_iff] at hb
    obtain ⟨_, w1, hs, entries, w2, ha, rb, w3, hc, _, w4, hr, hbd⟩ := hb
    obtain ⟨_, hw1⟩ := (mainSetup_ok_iff fl env _ w1).mp hs
    obtain ⟨h0, h1, hS⟩ := mainAlloc_ok_inv fl w1 w2 entries ha
    rw [mainAlloc_eq fl h0 h1 hS w1] at ha
    simp only [Res.ok.injEq] at ha
    obtain ⟨hent, hw2⟩ := ha
    have hheap1 : w1.heap = [] := by rw [hw1]; rfl
    have hnext1 : w1.nextArr = 1 := by rw [hw1]; rfl
    simp only [hheap1, List.length_nil] at hent
    rw [← List.range_eq_range'] at hent
    have hheap2 : w2.heap = allocHeap fl.valueSize (numEntries fl).toNat 1 := by
      rw [← hw2]
      simp [allocWorld, hheap1, hnext1]
    have hlen2 : w2.heap.length = (numEntries fl).toNat := by
      rw [hheap2, allocHeap_length]
    have hbnd : List.range (numEntries fl).toNat ≠ [] → 0 < intnBound fl := by
      intro hne
      rw [intnBound_eq fl h0 h1]
      have : (numEntries fl).toNat ≠ 0 := by
        intro h0'
        rw [h0'] at hne
        exact hne rfl
      omega
    obtain ⟨w3', hrun, t3, b3, r3, d3, f3, l3, _, hin⟩ :=
      createEntries_eq fl (List.range (numEntries fl).toNat) w2 hbnd
        (by intro a ha; rw [hlen2]; exact List.mem_range.mp ha) (List.nodup_range _)
    rw [← hent, hrun] at hc
    simp only [Res.ok.injEq] at hc
    obtain ⟨hrb, hw3⟩ := hc
    subst hw3
    have hrocks : w3'.rocks = .opened [] := by rw [r3, ← hw2, hw1]; rfl
    have hbdg : w3'.bdg = .opened [] := by rw [b3, ← hw2, hw1]; rfl
    have htr2 : w2.trace = setupTrace fl := by rw [← hw2, hw1]; simp [allocWorld, setupWorld, World.init]
    have hdf2 : w2.deferred = if fl.cpuprofile ≠ "" then [.stopCPUProfile] else [] := by
      rw [← hw2, hw1]
      simp [allocWorld, setupWorld, World.init]
    cases he : env (.rocksWriteBatch rb.puts) with
    | true =>
      obtain ⟨wx, hx⟩ := mainRocks_stop fl env rb w3' [] hrocks he
      rw [hx] at hr
      cases hr
    | false =>
      rw [mainRocks_eq fl env rb w3' [] hrocks he] at hr
      simp only [Res.ok.injEq, true_and] at hr
      subst hr
      rw [← hent] at hbd
      obtain ⟨_, hw5⟩ := (mainBadger_ok_iff fl env (List.range (numEntries fl).toNat)
        { w3' with
          trace := w3'.trace ++ rocksTrace fl rb.puts []
          rocks := .closed
          disk := fun d => if d = "tmp/rocks" then some (omPutAll [] rb.puts) else w3'.disk d }
        w5 [] hbdg
        (by intro a ha; simp only [l3, hlen2]; exact List.mem_range.mp ha)).mp hbd
      subst hw5
      subst h
      refine ⟨h0, h1, hS, ?_, ?_, ?_⟩
      · simp only [l3, hlen2]
      · simp only [t3, f3, ← hrb, htr2, hdf2]
        simp [fullTrace]
      · intro a ha
        obtain ⟨ent, w0, e1, e2⟩ := hin a (List.mem_range.mpr ha)
        rw [hheap2] at e1
        exact ⟨ent, w0, e1, e2⟩

theorem main_total (fl : Flags) (env : Env) (rand : Rand) (disk : String → Option Store)
    (hmk : ∀ e, env e = true → e = .mkdirAll "tmp/rocks") (h0 : 0 ≤ numEntries fl)
    (h1 : 8 * numEntries fl ≤ maxAlloc)
    (hS : numEntries fl = 0 ∨ (0 ≤ fl.valueSize ∧ fl.valueSize ≤ maxAlloc)) :
    ∃ w', main fl env (World.init rand disk) = .ok () w' := by
  have henv : ∀ e, e ≠ .mkdirAll "tmp/rocks" → env e = false := by
    intro e he
    cases hv : env e with
    | false => rfl
    | true => exact absurd (hmk e hv) he
  have hs := (mainSetup_ok_iff fl env (World.init rand disk) _).mpr
    ⟨by
      intro e he
      apply henv
      intro hd
      subst hd
      by_cases hc : fl.cpuprofile = "" <;> simp [setupChecked, hc] at he, rfl⟩
  have ha := mainAlloc_eq fl h0 h1 hS (setupWorld fl env (World.init rand disk))
  have hheap1 : (setupWorld fl env (World.init rand disk)).heap = [] := rfl
  simp only [hheap1, List.length_nil] at ha
  rw [← List.range_eq_range'] at ha
  have hlen2 : (allocWorld fl (setupWorld fl env (World.init rand disk))).heap.length
      = (numEntries fl).toNat := by
    simp [allocWorld, hheap1, allocHeap_length]
  have hbnd : List.range (numEntries fl).toNat ≠ [] → 0 < intnBound fl := by
    intro hne
    rw [intnBound_eq fl h0 h1]
    have : (numEntries fl).toNat ≠ 0 := by
      intro h0'
      rw [h0'] at hne
      exact hne rfl
    omega
  obtain ⟨w3, hrun, t3, b3, r3, d3, f3, l3, _, hin⟩ :=
    createEntries_eq fl (List.range (numEntries fl).toNat)
      (allocWorld fl (setupWorld fl env (World.init rand disk))) hbnd
      (by
        intro a ha
        rw [hlen2]
        exact List.mem_range.mp ha)
      (List.nodup_range _)
  have hrocks : w3.rocks = .opened [] := by rw [r3]; rfl
  have hbdg : w3.bdg = .opened [] := by rw [b3]; rfl
  have hr := mainRocks_eq fl env { puts := (List.range (numEntries fl).toNat).map (kvAt w3.heap) }
    w3 [] hrocks (henv _ (fun hd => by cases hd))
  have hbd := (mainBadger_ok_iff fl env (List.range (numEntries fl).toNat)
    { w3 with
      trace := w3.trace ++ rocksTrace fl ((List.range (numEntries fl).toNat).map (kvAt w3.heap)) []
      rocks := .closed
      disk := fun d => if d = "tmp/rocks"
        then some (omPutAll [] ((List.range (numEntries fl).toNat).map (kvAt w3.heap)))
        else w3.disk d }
    _ [] hbdg
    (by
      intro a ha
      simp only [l3, hlen2]
      exact List.mem_range.mp ha)).mpr
        ⟨⟨henv _ (fun hd => by cases hd), fun _ => ⟨henv _ (fun hd => by cases hd),
          henv _ (fun hd => by cases hd)⟩⟩, rfl⟩
  obtain ⟨w5, hbd5⟩ : ∃ w5, mainBadger fl env ((List.range (numEntries fl).toNat).map some)
      { w3 with
        trace := w3.trace ++ rocksTrace fl ((List.range (numEntries fl).toNat).map (kvAt w3.heap)) []
        rocks := .closed
        disk := fun d => if d = "tmp/rocks"
          then some (omPutAll [] ((List.range (numEntries fl).toNat).map (kvAt w3.heap)))
          else w3.disk d } = .ok () w5 := ⟨_, hbd⟩
  have h5 : mainBody fl env (World.init rand disk) = .ok () w5 := by
    simp only [mainBody, bind_apply, bind_ok_iff]
    exact ⟨(), _, hs, _, _, ha, _, _, hrun, (), _, hr, hbd5⟩
  exact ⟨_, by unfold main; rw [h5]⟩

/-! ## Ordered maps -/

theorem mem_keys_omPut {K V : Type} [LinearOrder K] (k x : K) (v : V) (s : List (K × V)) :
    x ∈ (omPut k v s).map Prod.fst ↔ x = k ∨ x ∈ s.map Prod.fst := by
  induction s with
  | nil => simp [omPut]
  | cons p rest ih =>
    obtain ⟨k', v'⟩ := p
    unfold omPut
    by_cases h1 : k < k'
    · simp [h1]
    · by_cases h2 : k = k'
      · subst h2
        simp
      · simp only [h1, h2, if_false, List.map_cons, List.mem_cons, ih]
        tauto

theorem sorted_keys_omPut {K V : Type} [LinearOrder K] (k : K) (v : V) (s : List (K × V))
    (hs : (s.map Prod.fst).Pairwise (· < ·)) :
    ((omPut k v s).map Prod.fst).Pairwise (· < ·) := by
  induction s with
  | nil => simp [omPut]
  | cons p rest ih =>
    obtain ⟨k', v'⟩ := p
    simp only [List.map_cons, List.pairwise_cons] at hs
    obtain ⟨hlt, hrest⟩ := hs
    unfold omPut
    by_cases h1 : k < k'
    · simp only [h1, if_true, List.map_cons, List.pairwise_cons, List.mem_cons]
      refine ⟨?_, hlt, hrest⟩
      rintro x (rfl | hx)
      · exact h1
      · exact lt_trans h1 (hlt x hx)
    · by_cases h2 : k = k'
      · subst h2
        simp only [lt_self_iff_false, if_false, if_true, List.map_cons, List.pairwise_cons]
        exact ⟨hlt, hrest⟩
      · simp only [h1, h2, if_false, List.map_cons, List.pairwise_cons]
        refine ⟨?_, ih hrest⟩
        intro x hx
        rcases (mem_keys_omPut k x v rest).mp hx with rfl | hx2
        · exact lt_of_le_of_ne (not_lt.mp h1) (Ne.symm h2)
        · exact hlt x hx2

theorem omPutAll_keys {K V : Type} [LinearOrder K] (ps s : List (K × V))
    (hs : (s.map Prod.fst).Pairwise (· < ·)) :
    ((omPutAll s ps).map Prod.fst).Pairwise (· < ·) ∧
      ∀ x, x ∈ (omPutAll s ps).map Prod.fst ↔ x ∈ ps.map Prod.fst ∨ x ∈ s.map Prod.fst := by
  induction ps generalizing s with
  | nil => simp [omPutAll, hs]
  | cons p rest ih =>
    have h1 := ih (omPut p.1 p.2 s) (sorted_keys_omPut p.1 p.2 s hs)
    refine ⟨h1.1, ?_⟩
    intro x
    have h2 := h1.2 x
    simp only [omPutAll, List.foldl_cons] at h2 ⊢
    rw [h2, mem_keys_omPut]
    simp only [List.map_cons, List.mem_cons]
    tauto

theorem omPutAll_length {K V : Type} [LinearOrder K] [inst : DecidableEq K] (ps : List (K × V)) :
    (omPutAll [] ps).length = (@List.dedup K inst (ps.map Prod.fst)).length := by
  obtain ⟨hsorted, hmem⟩ := omPutAll_keys ps ([] : List (K × V)) (by simp)
  have hnd : ((omPutAll [] ps).map Prod.fst).Nodup :=
    hsorted.imp (fun h => ne_of_lt h)
  have hperm : ((omPutAll [] ps).map Prod.fst).Perm (ps.map Prod.fst).dedup := by
    rw [List.perm_ext_iff_of_nodup hnd (List.nodup_dedup _)]
    intro x
    rw [hmem x, List.mem_dedup]
    simp
  have := hperm.length_eq
  simpa using this

theorem scanLoop_eq (s : Store) (c : Int) (h0 : -(2 ^ 63) ≤ c) (h1 : c + s.length < 2 ^ 63) :
    scanLoop s c = c + s.length := by
  induction s generalizing c with
  | nil => simp [scanLoop]
  | cons p rest ih =>
    simp only [List.length_cons, Nat.cast_add, Nat.cast_one] at h1
    simp only [scanLoop, List.length_cons, Nat.cast_add, Nat.cast_one]
    rw [wrapInt_eq _ (by omega) (by omega), ih _ (by omega) (by omega)]
    omega

/-! ## Formatting: content and reading back -/

theorem digitByte_val (d : Nat) (h : d < 10) : (digitByte d).val = 48 + d := by
  unfold digitByte
  simp only [Fin.ofNat, Fin.val_mk]
  omega

theorem isDigitByte_digitByte (d : Nat) (h : d < 10) : isDigitByte (digitByte d) = true := by
  simp [isDigitByte, digitByte_val d h]
  omega

theorem decDigits_eq_digits (fuel u : Nat) (h0 : 0 < u) (hu : u < 10 ^ fuel) :
    decDigits fuel u = (Nat.digits 10 u).reverse.map digitByte := by
  induction fuel generalizing u with
  | zero => simp at hu; omega
  | succ n ih =>
    unfold decDigits
    by_cases h10 : u < 10
    · simp [h10, Nat.digits_of_lt 10 u (by omega) h10]
    · have hq : 0 < u / 10 := Nat.div_pos (by omega) (by norm_num)
      have hq2 : u / 10 < 10 ^ n := by
        rw [Nat.div_lt_iff_lt_mul (by norm_num)]
        rw [pow_succ] at hu
        exact hu
      simp only [h10, if_false]
      rw [ih (u / 10) hq hq2, Nat.digits_def' (by norm_num : 1 < 10) h0]
      simp

theorem decDigits_all (fuel u : Nat) : ∀ b ∈ decDigits fuel u, isDigitByte b = true := by
  induction fuel generalizing u with
  | zero => simp [decDigits]
  | succ n ih =>
    unfold decDigits
    by_cases h10 : u < 10
    · simp only [h10, if_true, List.mem_singleton]
      rintro b rfl
      exact isDigitByte_digitByte u h10
    · simp only [h10, if_false, List.mem_append, List.mem_singleton]
      rintro b (hb | rfl)
      · exact ih (u / 10) b hb
      · exact isDigitByte_digitByte _ (Nat.mod_lt _ (by norm_num))

theorem readDec_append (xs ys : List Byte) :
    readDec (xs ++ ys) = ys.foldl (fun acc b => 10 * acc + (b.val - 48)) (readDec xs) := by
  simp [readDec, List.foldl_append]

theorem readDec_decDigits (fuel u : Nat) (hu : u < 10 ^ fuel) : readDec (decDigits fuel u) = u := by
  induction fuel generalizing u with
  | zero => simp at hu; subst hu; simp [decDigits, readDec]
  | succ n ih =>
    unfold decDigits
    by_cases h10 : u < 10
    · simp [h10, readDec, digitByte_val u h10]
    · have hq2 : u / 10 < 10 ^ n := by
        rw [Nat.div_lt_iff_lt_mul (by norm_num)]
        rw [pow_succ] at hu
        exact hu
      simp only [h10, if_false]
      rw [readDec_append, ih (u / 10) hq2]
      simp only [List.foldl_cons, List.foldl_nil]
      rw [digitByte_val _ (Nat.mod_lt _ (by norm_num))]
      omega

theorem readDec_zeros (z : Nat) (ds : List Byte) :
    readDec (List.replicate z (digitByte 0) ++ ds) = readDec ds := by
  induction z with
  | zero => simp
  | succ n ih =>
    have hz : (digitByte 0).val - 48 = 0 := by rw [digitByte_val 0 (by norm_num)]
    simp only [List.replicate_succ, List.cons_append]
    unfold readDec at ih ⊢
    simp only [List.foldl_cons, hz]
    exact ih

theorem fmtInteger_nonneg (wid : Nat) (v : Int) (h0 : 0 ≤ v) :
    fmtInteger wid v =
      List.replicate (wid - (decDigits 20 v.toNat).length) (digitByte 0) ++ decDigits 20 v.toNat := by
  have hlt : ¬ v < 0 := by omega
  have hn : v.natAbs = v.toNat := by omega
  simp [fmtInteger, hlt, hn]

theorem fmtInteger_eq_zeroPadded (wid : Nat) (v : Int) (hw : 1 ≤ wid) (h0 : 0 ≤ v)
    (h1 : v < 10 ^ 20) : fmtInteger wid v = zeroPadded wid v.toNat := by
  rw [fmtInteger_nonneg wid v h0]
  unfold zeroPadded
  by_cases hz : v.toNat = 0
  · rw [hz]
    have h1 : decDigits 20 0 = [digitByte 0] := by decide
    rw [h1]
    simp only [Nat.digits_zero, List.reverse_nil, List.map_nil, List.length_nil,
      List.length_singleton, Nat.sub_zero, List.append_nil]
    obtain ⟨m, rfl⟩ : ∃ m, wid = m + 1 := ⟨wid - 1, by omega⟩
    simp [List.replicate_succ']
  · have hu : v.toNat < 10 ^ 20 := by
      have : ((v.toNat : Nat) : Int) < ((10 ^ 20 : Nat) : Int) := by
        rw [Int.toNat_of_nonneg h0]
        push_cast
        exact h1
      exact_mod_cast this
    rw [decDigits_eq_digits 20 v.toNat (by omega) hu]

theorem fmtInteger_all (wid : Nat) (v : Int) (h0 : 0 ≤ v) :
    ∀ b ∈ fmtInteger wid v, isDigitByte b = true := by
  rw [fmtInteger_nonneg wid v h0]
  intro b hb
  rcases List.mem_append.mp hb with h | h
  · rw [(List.mem_replicate.mp h).2]
    exact isDigitByte_digitByte 0 (by norm_num)
  · exact decDigits_all 20 _ b h

theorem readDec_fmtInteger (wid : Nat) (v : Int) (h0 : 0 ≤ v) (h1 : v < 10 ^ 20) :
    readDec (fmtInteger wid v) = v.toNat := by
  have hu : v.toNat < 10 ^ 20 := by
    have : ((v.toNat : Nat) : Int) < ((10 ^ 20 : Nat) : Int) := by
      rw [Int.toNat_of_nonneg h0]
      push_cast
      exact h1
    exact_mod_cast this
  rw [fmtInteger_nonneg wid v h0, readDec_zeros, readDec_decDigits 20 _ hu]

theorem fmtInteger_ne_nil (wid : Nat) (v : Int) (h0 : 0 ≤ v) : fmtInteger wid v ≠ [] := by
  rw [fmtInteger_nonneg wid v h0]
  have h3 : 1 ≤ (decDigits 20 v.toNat).length := decDigits_length_pos 19 v.toNat
  intro h
  have h2 := congrArg List.length h
  simp only [List.length_append, List.length_replicate, List.length_nil] at h2
  omega

theorem sprintfKey_eq_keyPattern (S k : Int) (hS0 : 0 ≤ S) (hS1 : S < 10 ^ 20) (hk0 : 0 ≤ k)
    (hk1 : k < 10 ^ 20) : sprintfKey S k = keyPattern S.toNat k.toNat := by
  unfold sprintfKey keyPattern
  rw [fmtInteger_eq_zeroPadded 5 S (by norm_num) hS0 hS1,
    fmtInteger_eq_zeroPadded 10 k (by norm_num) hk0 hk1]

theorem takeWhile_append_stop {α : Type} (p : α → Bool) (xs : List α) (x : α) (rest : List α)
    (hall : ∀ a ∈ xs, p a = true) (hx : p x = false) :
    (xs ++ x :: rest).takeWhile p = xs ∧ (xs ++ x :: rest).dropWhile p = x :: rest := by
  induction xs with
  | nil => simp [List.takeWhile, List.dropWhile, hx]
  | cons y ys ih =>
    have hy : p y = true := hall y (List.mem_cons_self y ys)
    have ih2 := ih (fun a ha => hall a (List.mem_cons_of_mem y ha))
    simp [List.takeWhile, List.dropWhile, hy, ih2]

theorem readKey_sprintfKey (S k : Int) (hS0 : 0 ≤ S) (hS1 : S < 10 ^ 20) (hk0 : 0 ≤ k)
    (hk1 : k < 10 ^ 20) : readKey (sprintfKey S k) = some (S.toNat, k.toNat) := by
  have hA := fmtInteger_all 5 S hS0
  have hB := fmtInteger_all 10 k hk0
  have hAn := fmtInteger_ne_nil 5 S hS0
  have hBn := fmtInteger_ne_nil 10 k hk0
  have hrA := readDec_fmtInteger 5 S hS0 hS1
  have hrB := readDec_fmtInteger 10 k hk0 hk1
  unfold sprintfKey
  generalize fmtInteger 5 S = A at *
  generalize fmtInteger 10 k = B at *
  have e1 : lit "vsz=" = [118, 115, 122, 61] := by decide
  have e2 : lit "-k=" = [45, 107, 61] := by decide
  have h45 : isDigitByte 45 = false := by decide
  obtain ⟨ht, hd⟩ := takeWhile_append_stop isDigitByte A 45 (107 :: 61 :: B) hA h45
  have hBall : B.all isDigitByte = true := by
    rw [List.all_eq_true]
    exact hB
  have hform : lit "vsz=" ++ A ++ lit "-k=" ++ B
      = [118, 115, 122, 61] ++ (A ++ 45 :: 107 :: 61 :: B) := by
    rw [e1, e2]
    simp
  rw [hform]
  have hdrop : ([118, 115, 122, 61] ++ (A ++ 45 :: 107 :: 61 :: B) : List Byte).drop 4
      = A ++ 45 :: 107 :: 61 :: B := rfl
  have htake : ([118, 115, 122, 61] ++ (A ++ 45 :: 107 :: 61 :: B) : List Byte).take 4
      = [118, 115, 122, 61] := rfl
  simp only [readKey, hdrop, htake, ht, hd, e1, e2]
  simp [hAn, hBn, hBall, hrA, hrB]

/-! ## What `fillEntry` leaves in the entry -/

theorem draw_range (r : Rand) (n : Int) (hn : 0 < n) : 0 ≤ r.draw n ∧ r.draw n < n := by
  unfold Rand.draw
  exact ⟨Int.emod_nonneg _ (by omega), Int.emod_lt_of_pos _ hn⟩

theorem intnBound_lt (fl : Flags) : intnBound fl < 2 ^ 63 := by
  unfold intnBound imul
  exact (wrapInt_range _).2

theorem intnBound_le (fl : Flags) (hN : 0 ≤ fl.numKeys) (hb : 0 < intnBound fl) :
    intnBound fl ≤ fl.numKeys * 10000000 := by
  unfold intnBound imul wrapInt mil at *
  omega

theorem filledEntry_key_bytes (fl : Flags) (ent : Entry) (w : World) :
    (filledEntry fl ent w).Key.bytes = sprintfKey fl.valueSize (w.rand.draw (intnBound fl)) := by
  unfold filledEntry filledKey Slice.bytes
  split <;> simp

theorem filledEntry_key_len (fl : Flags) (ent : Entry) (w : World) :
    (filledEntry fl ent w).Key.len
      = (sprintfKey fl.valueSize (w.rand.draw (intnBound fl))).length := by
  unfold filledEntry filledKey
  split <;> rfl

theorem filledEntry_value_len (fl : Flags) (ent : Entry) (w : World) :
    (filledEntry fl ent w).Value.len = ent.Value.len := rfl

theorem filledEntry_value_bytes_length (fl : Flags) (ent : Entry) (w : World) :
    (filledEntry fl ent w).Value.bytes.length = ent.Value.len := by
  simp [filledEntry, Slice.bytes, Rand.bytes]

theorem filledWorld_get (fl : Flags) (a : Nat) (ent : Entry) (w : World)
    (h : w.heap[a]? = some ent) :
    (filledWorld fl a ent w).heap[a]? = some (filledEntry fl ent w) := by
  have ha : a < w.heap.length := by
    rw [List.getElem?_eq_some] at h
    exact h.1
  simp [filledWorld_heap, ha]

theorem stagedWorld_get (fl : Flags) (rand : Rand) (a : Nat) (ha : a < (numEntries fl).toNat) :
    (stagedWorld fl rand).heap[a]? = some
      { Key := { arr := 1 + 2 * a, buf := List.replicate 22 0, len := 22 }
        Value :=
          { arr := 1 + 2 * a + 1, buf := List.replicate fl.valueSize.toNat 0, len := fl.valueSize.toNat }
        Meta := 0 } := by
  have h := allocHeap_get fl.valueSize (numEntries fl).toNat 1 a ha
  simpa [stagedWorld, allocWorld, setupWorld, World.init] using h

theorem fillEntry_stores_key (fl : Flags) (a : Nat) (w : World) (ent : Entry)
    (h : w.heap[a]? = some ent) (hb : 0 < intnBound fl) :
    ∃ w' e, fillEntry fl (some a) w = .ok () w' ∧ w'.heap[a]? = some e ∧
      e.Key.bytes = sprintfKey fl.valueSize (w.rand.draw (intnBound fl)) ∧
      e.Key.len = (sprintfKey fl.valueSize (w.rand.draw (intnBound fl))).length :=
  ⟨filledWorld fl a ent w, filledEntry fl ent w, fillEntry_eq fl a w ent h hb,
    filledWorld_get fl a ent w h, filledEntry_key_bytes fl ent w, filledEntry_key_len fl ent w⟩

/-! ## Claims about `fillEntry` -/

/-- C10: whatever the length and capacity of the key buffer, `fillEntry`
returns and leaves in `e.Key` exactly the formatted key (all of it, nothing
else), with `e.Meta = 0`; when the capacity suffices the same array is kept,
its capacity unchanged, the bytes past the key untouched and nothing
allocated; otherwise a fresh array of twice the key's length is used. -/
theorem fillEntry_grows_key (fl : Flags) (a : Nat) (w : World) (ent : Entry)
    (h : w.heap[a]? = some ent) (hb : 0 < intnBound fl) :
    ∃ w' e, fillEntry fl (some a) w = .ok () w' ∧ w'.heap[a]? = some e ∧
      e.Key.bytes = sprintfKey fl.valueSize (w.rand.draw (intnBound fl)) ∧
      e.Key.len = (sprintfKey fl.valueSize (w.rand.draw (intnBound fl))).length ∧
      e.Meta = 0 ∧
      ((sprintfKey fl.valueSize (w.rand.draw (intnBound fl))).length ≤ ent.Key.cap →
        e.Key.arr = ent.Key.arr ∧ e.Key.cap = ent.Key.cap ∧ w'.nextArr = w.nextArr ∧
        e.Key.buf = sprintfKey fl.valueSize (w.rand.draw (intnBound fl)) ++
          ent.Key.buf.drop (sprintfKey fl.valueSize (w.rand.draw (intnBound fl))).length) ∧
      (ent.Key.cap < (sprintfKey fl.valueSize (w.rand.draw (intnBound fl))).length →
        e.Key.arr = w.nextArr ∧ w'.nextArr = w.nextArr + 1 ∧
        e.Key.cap = 2 * (sprintfKey fl.valueSize (w.rand.draw (intnBound fl))).length) := by
  refine ⟨filledWorld fl a ent w, filledEntry fl ent w, fillEntry_eq fl a w ent h hb,
    filledWorld_get fl a ent w h, filledEntry_key_bytes fl ent w, filledEntry_key_len fl ent w,
    rfl, ?_, ?_⟩
  · intro hc
    unfold Slice.cap at hc
    have hc2 : ¬ ent.Key.buf.length
        < (sprintfKey fl.valueSize (w.rand.draw (intnBound fl))).length := by
      omega
    simp only [filledWorld, filledEntry, filledKey, Slice.cap, hc2, if_false, List.length_append,
      List.length_drop, true_and, and_true]
    omega
  · intro hc
    unfold Slice.cap at hc
    simp only [filledWorld, filledEntry, filledKey, Slice.cap, hc, if_true, List.length_append,
      List.length_replicate, true_and]
    omega

/-- Witness of C10, on two entries. A key buffer of capacity 5 holding old
bytes: the key goes, whole, into a fresh array (number 100) of capacity 44.
A key buffer of length and capacity 30: the same array (number 3) is kept,
cut to the 22 bytes of the key, its last 8 bytes untouched, nothing
allocated. In both `Meta` goes from 9 to 0. -/
theorem fillEntry_grows_key_witness :
    (∃ w' e, fillEntry (plainFlags 1 0) (some 0) (oneEntryWorld smallKeyEntry (constRand 7))
        = .ok () w' ∧ w'.heap[0]? = some e ∧
      e.Key.bytes = lit "vsz=00000-k=0000000007" ∧ e.Key.len = 22 ∧ e.Meta = 0 ∧
      e.Key.arr = 100 ∧ w'.nextArr = 101 ∧ e.Key.cap = 44) ∧
    (∃ w' e, fillEntry (plainFlags 1 0) (some 0) (oneEntryWorld largeKeyEntry (constRand 7))
        = .ok () w' ∧ w'.heap[0]? = some e ∧
      e.Key.bytes = lit "vsz=00000-k=0000000007" ∧ e.Key.len = 22 ∧ e.Meta = 0 ∧
      e.Key.arr = 3 ∧ e.Key.cap = 30 ∧ w'.nextArr = 100 ∧
      e.Key.buf = lit "vsz=00000-k=0000000007" ++ List.replicate 8 255) := by
  constructor
  · obtain ⟨w', e, h1, h2, h3, h4, h5, _, h7⟩ :=
      fillEntry_grows_key (plainFlags 1 0) 0 (oneEntryWorld smallKeyEntry (constRand 7))
        smallKeyEntry rfl (by decide)
    have hk : sprintfKey (plainFlags 1 0).valueSize
        ((oneEntryWorld smallKeyEntry (constRand 7)).rand.draw (intnBound (plainFlags 1 0)))
        = lit "vsz=00000-k=0000000007" := by decide
    rw [hk] at h3 h4 h7
    obtain ⟨g1, g2, g3⟩ := h7 (by decide)
    exact ⟨w', e, h1, h2, h3, h4, h5, g1, g2, g3⟩
  · obtain ⟨w', e, h1, h2, h3, h4, h5, h6, _⟩ :=
      fillEntry_grows_key (plainFlags 1 0) 0 (oneEntryWorld largeKeyEntry (constRand 7))
        largeKeyEntry rfl (by decide)
    have hk : sprintfKey (plainFlags 1 0).valueSize
        ((oneEntryWorld largeKeyEntry (constRand 7)).rand.draw (intnBound (plainFlags 1 0)))
        = lit "vsz=00000-k=0000000007" := by decide
    rw [hk] at h3 h4 h6
    obtain ⟨g1, g2, g3, g4⟩ := h6 (by decide)
    exact ⟨w', e, h1, h2, h3, h4, h5, g1, g2, g3, g4⟩

/-- C1 (as stated, refuted): in the run with `keys_mil = 1` and
`valsz = 100000` the first key `fillEntry` stores has 23 bytes, not 22. -/
theorem key_length_23_at_valsz_100000 :
    ∃ w' e, fillEntry (plainFlags 1 100000) (some 0)
        (stagedWorld (plainFlags 1 100000) (constRand 7)) = .ok () w' ∧
      w'.heap[0]? = some e ∧ e.Key.bytes = lit "vsz=100000-k=0000000007" ∧
      e.Key.bytes.length = 23 ∧ e.Key.len = 23 := by
  obtain ⟨w', e, h1, h2, h3, h4⟩ :=
    fillEntry_stores_key (plainFlags 1 100000) 0
      (stagedWorld (plainFlags 1 100000) (constRand 7)) _
      (stagedWorld_get (plainFlags 1 100000) (constRand 7) 0 (by decide)) (by decide)
  have hk : sprintfKey (plainFlags 1 100000).valueSize
      ((stagedWorld (plainFlags 1 100000) (constRand 7)).rand.draw
        (intnBound (plainFlags 1 100000))) = lit "vsz=100000-k=0000000007" := by decide
  rw [hk] at h3 h4
  refine ⟨w', e, h1, h2, h3, ?_, ?_⟩
  · rw [h3]
    decide
  · rw [h4]
    decide

/-- C1 (amended): when the value size lies in `[-9999, 99999]` and the bound
handed to `rand.Intn` is at most `10^10` (so for `keys_mil ≤ 1000`),
`fillEntry` returns and the key it stores in `e.Key` has exactly 22 bytes. -/
theorem fillEntry_key_length (fl : Flags) (a : Nat) (w : World) (ent : Entry)
    (h : w.heap[a]? = some ent) (hb : 0 < intnBound fl) (hb2 : intnBound fl ≤ 10 ^ 10)
    (hS0 : -9999 ≤ fl.valueSize) (hS1 : fl.valueSize ≤ 99999) :
    ∃ w' e, fillEntry fl (some a) w = .ok () w' ∧ w'.heap[a]? = some e ∧
      e.Key.len = 22 ∧ e.Key.bytes.length = 22 := by
  obtain ⟨hk0, hk1⟩ := draw_range w.rand (intnBound fl) hb
  have hlen := sprintfKey_length_eq fl.valueSize (w.rand.draw (intnBound fl)) hS0 hS1 hk0
    (by omega)
  refine ⟨filledWorld fl a ent w, filledEntry fl ent w, fillEntry_eq fl a w ent h hb,
    filledWorld_get fl a ent w h, ?_, ?_⟩
  · rw [filledEntry_key_len, hlen]
  · rw [filledEntry_key_bytes, hlen]

/-- Witness of C1 (amended): `keys_mil = 1`, `valsz = 100`. -/
theorem fillEntry_key_length_witness :
    ∃ w' e, fillEntry (plainFlags 1 100) (some 0) (stagedWorld (plainFlags 1 100) (constRand 7))
        = .ok () w' ∧ w'.heap[0]? = some e ∧ e.Key.len = 22 ∧ e.Key.bytes.length = 22 :=
  fillEntry_key_length (plainFlags 1 100) 0 (stagedWorld (plainFlags 1 100) (constRand 7)) _
    (stagedWorld_get (plainFlags 1 100) (constRand 7) 0 (by decide)) (by decide) (by decide)
    (by decide) (by decide)

/-- C3 (as stated, refuted): with `keys_mil = -18446744073709` the 64-bit
products wrap, `*numKeys * 1000000` to 551616 and the bound of `rand.Intn` to
5516160; `main` allocates its entries and `fillEntry` stores the key
`vsz=00000-k=0000000007`, whose integer 7 is not below
`numKeys * 10,000,000`, a negative number. -/
theorem key_integer_not_below_negative_numKeys :
    numEntries (plainFlags (-18446744073709) 0) = 551616 ∧
    intnBound (plainFlags (-18446744073709) 0) = 5516160 ∧
    mainAlloc (plainFlags (-18446744073709) 0)
        (setupWorld (plainFlags (-18446744073709) 0) noErrors (World.init (constRand 7) emptyDisk))
      = .ok ((List.range' 0 551616).map some)
        (stagedWorld (plainFlags (-18446744073709) 0) (constRand 7)) ∧
    ∃ w' e, fillEntry (plainFlags (-18446744073709) 0) (some 0)
        (stagedWorld (plainFlags (-18446744073709) 0) (constRand 7)) = .ok () w' ∧
      w'.heap[0]? = some e ∧ e.Key.bytes = lit "vsz=00000-k=0000000007" ∧
      readKey e.Key.bytes = some (0, 7) ∧
      ¬ ((7 : Int) < (plainFlags (-18446744073709) 0).numKeys * 10000000) := by
  refine ⟨by decide, by decide, ?_, ?_⟩
  · exact mainAlloc_eq (plainFlags (-18446744073709) 0) (by decide) (by decide)
      (Or.inr ⟨by decide, by decide⟩) _
  · obtain ⟨w', e, h1, h2, h3, _⟩ :=
      fillEntry_stores_key (plainFlags (-18446744073709) 0) 0
        (stagedWorld (plainFlags (-18446744073709) 0) (constRand 7)) _
        (stagedWorld_get (plainFlags (-18446744073709) 0) (constRand 7) 0 (by decide))
        (by decide)
    have hk : sprintfKey (plainFlags (-18446744073709) 0).valueSize
        ((stagedWorld (plainFlags (-18446744073709) 0) (constRand 7)).rand.draw
          (intnBound (plainFlags (-18446744073709) 0))) = lit "vsz=00000-k=0000000007" := by
      decide
    rw [hk] at h3
    refine ⟨w', e, h1, h2, h3, ?_, by decide⟩
    rw [h3]
    decide

/-- C3 (amended): for a configuration with `numKeys ≥ 0` and a value size that is a
non-negative Go `int`, `fillEntry` returns and the key it stores is `vsz=`,
the value size in decimal zero-padded to 5 digits, `-k=`, and an integer `k`
in decimal zero-padded to 10 digits, with `0 ≤ k < numKeys * 10,000,000`;
the value size and `k` are read back from the key. -/
theorem fillEntry_key_format (fl : Flags) (a : Nat) (w : World) (ent : Entry)
    (h : w.heap[a]? = some ent) (hb : 0 < intnBound fl) (hN : 0 ≤ fl.numKeys)
    (hS0 : 0 ≤ fl.valueSize) (hS1 : fl.valueSize < 2 ^ 63) :
    ∃ w' e k, fillEntry fl (some a) w = .ok () w' ∧ w'.heap[a]? = some e ∧
      0 ≤ k ∧ k < fl.numKeys * 10000000 ∧
      e.Key.bytes = lit "vsz=" ++ zeroPadded 5 fl.valueSize.toNat ++ lit "-k=" ++
        zeroPadded 10 k.toNat ∧
      readKey e.Key.bytes = some (fl.valueSize.toNat, k.toNat) := by
  obtain ⟨hk0, hk1⟩ := draw_range w.rand (intnBound fl) hb
  have hlt := intnBound_lt fl
  have hle := intnBound_le fl hN hb
  have hS2 : fl.valueSize < 10 ^ 20 := by omega
  have hk2 : w.rand.draw (intnBound fl) < 10 ^ 20 := by omega
  refine ⟨filledWorld fl a ent w, filledEntry fl ent w, w.rand.draw (intnBound fl),
    fillEntry_eq fl a w ent h hb, filledWorld_get fl a ent w h, hk0, by omega, ?_, ?_⟩
  · rw [filledEntry_key_bytes, sprintfKey_eq_keyPattern _ _ hS0 hS2 hk0 hk2]
    rfl
  · rw [filledEntry_key_bytes]
    exact readKey_sprintfKey _ _ hS0 hS2 hk0 hk2

/-- Witness of C3 (amended): `keys_mil = 1`, `valsz = 100`. -/
theorem fillEntry_key_format_witness :
    ∃ w' e k, fillEntry (plainFlags 1 100) (some 0)
        (stagedWorld (plainFlags 1 100) (constRand 12345)) = .ok () w' ∧
      w'.heap[0]? = some e ∧ 0 ≤ k ∧ k < (plainFlags 1 100).numKeys * 10000000 ∧
      e.Key.bytes = lit "vsz=" ++ zeroPadded 5 (plainFlags 1 100).valueSize.toNat ++ lit "-k=" ++
        zeroPadded 10 k.toNat ∧
      readKey e.Key.bytes = some ((plainFlags 1 100).valueSize.toNat, k.toNat) :=
  fillEntry_key_format (plainFlags 1 100) 0 (stagedWorld (plainFlags 1 100) (constRand 12345)) _
    (stagedWorld_get (plainFlags 1 100) (constRand 12345) 0 (by decide)) (by decide) (by decide)
    (by decide) (by decide)

/-- C9 (as stated, refuted): in the run with `keys_mil = 1` the key
`vsz=00000-k=0000012345` is produced; its integer field, 12345, is not below
`numKeys * 10 = 10`. -/
theorem key_integer_not_below_ten_numKeys :
    ∃ w' e, fillEntry (plainFlags 1 0) (some 0) (stagedWorld (plainFlags 1 0) (constRand 12345))
        = .ok () w' ∧ w'.heap[0]? = some e ∧ e.Key.bytes = lit "vsz=00000-k=0000012345" ∧
      readKey e.Key.bytes = some (0, 12345) ∧
      ¬ ((12345 : Int) < (plainFlags 1 0).numKeys * 10) := by
  obtain ⟨w', e, h1, h2, h3, _⟩ :=
    fillEntry_stores_key (plainFlags 1 0) 0 (stagedWorld (plainFlags 1 0) (constRand 12345)) _
      (stagedWorld_get (plainFlags 1 0) (constRand 12345) 0 (by decide)) (by decide)
  have hk : sprintfKey (plainFlags 1 0).valueSize
      ((stagedWorld (plainFlags 1 0) (constRand 12345)).rand.draw
        (intnBound (plainFlags 1 0))) = lit "vsz=00000-k=0000012345" := by decide
  rw [hk] at h3
  refine ⟨w', e, h1, h2, h3, ?_, by decide⟩
  rw [h3]
  decide

/-- C9 (amended): the integer in a generated key lies in
`[0, numKeys * 10,000,000)`: for `numKeys ≥ 0`, `fillEntry` returns and the
key it stores is the formatting of the value size and of an integer `k` with
`0 ≤ k < numKeys * 10,000,000` (and `k` below the bound handed to
`rand.Intn`). -/
theorem fillEntry_key_integer_range (fl : Flags) (a : Nat) (w : World) (ent : Entry)
    (h : w.heap[a]? = some ent) (hb : 0 < intnBound fl) (hN : 0 ≤ fl.numKeys) :
    ∃ w' e k, fillEntry fl (some a) w = .ok () w' ∧ w'.heap[a]? = some e ∧
      e.Key.bytes = sprintfKey fl.valueSize k ∧
      0 ≤ k ∧ k < intnBound fl ∧ k < fl.numKeys * 10000000 := by
  obtain ⟨hk0, hk1⟩ := draw_range w.rand (intnBound fl) hb
  have hle := intnBound_le fl hN hb
  exact ⟨filledWorld fl a ent w, filledEntry fl ent w, w.rand.draw (intnBound fl),
    fillEntry_eq fl a w ent h hb, filledWorld_get fl a ent w h, filledEntry_key_bytes fl ent w,
    hk0, hk1, by omega⟩

/-- Witness of C9 (amended): `keys_mil = 1`. -/
theorem fillEntry_key_integer_range_witness :
    ∃ w' e k, fillEntry (plainFlags 1 0) (some 0)
        (stagedWorld (plainFlags 1 0) (constRand 12345)) = .ok () w' ∧
      w'.heap[0]? = some e ∧ e.Key.bytes = sprintfKey (plainFlags 1 0).valueSize k ∧
      0 ≤ k ∧ k < intnBound (plainFlags 1 0) ∧ k < (plainFlags 1 0).numKeys * 10000000 :=
  fillEntry_key_integer_range (plainFlags 1 0) 0 (stagedWorld (plainFlags 1 0) (constRand 12345)) _
    (stagedWorld_get (plainFlags 1 0) (constRand 12345) 0 (by decide)) (by decide) (by decide)

/-! ## Claims about the entries `main` builds -/

theorem allocWorld_get (fl : Flags) (w : World) (a : Nat)
    (ha : a ∈ List.range' w.heap.length (numEntries fl).toNat) :
    ∃ ent, (allocWorld fl w).heap[a]? = some ent ∧ ent.Value.len = fl.valueSize.toNat ∧
      ent.Key.len = 22 ∧ ent.Key.cap = 22 := by
  rw [List.mem_range'_1] at ha
  obtain ⟨j, rfl⟩ : ∃ j, a = w.heap.length + j := ⟨a - w.heap.length, by omega⟩
  have hj : j < (numEntries fl).toNat := by omega
  refine ⟨{ Key := { arr := w.nextArr + 2 * j, buf := List.replicate 22 0, len := 22 }
            Value :=
              { arr := w.nextArr + 2 * j + 1, buf := List.replicate fl.valueSize.toNat 0,
                len := fl.valueSize.toNat }
            Meta := 0 }, ?_, rfl, rfl, ?_⟩
  · simp only [allocWorld]
    rw [List.getElem?_append_right (by omega)]
    simp only [Nat.add_sub_cancel_left]
    exact allocHeap_get fl.valueSize _ w.nextArr j hj
  · simp [Slice.cap]

theorem allocWorld_length (fl : Flags) (w : World) :
    (allocWorld fl w).heap.length = w.heap.length + (numEntries fl).toNat := by
  simp [allocWorld, allocHeap_length]

theorem numEntries_eq (fl : Flags) (h0 : 0 ≤ fl.numKeys)
    (h1 : 8 * (fl.numKeys * 1000000) ≤ maxAlloc) : numEntries fl = fl.numKeys * 1000000 := by
  unfold numEntries imul
  unfold maxAlloc at h1
  exact wrapInt_eq _ (by omega) (by omega)

/-- C2 (as stated, refuted): with `keys_mil = 76480200929599801` the 64-bit
product `*numKeys * 1000000` wraps to 64: `main` builds 64 entries,
`createEntries` fills them and the run returns; 64 is not `N * 1,000,000`. -/
theorem entry_count_wraps_at_large_keys_mil :
    numEntries (plainFlags 76480200929599801 0) = 64 ∧
    mainAlloc (plainFlags 76480200929599801 0)
        (setupWorld (plainFlags 76480200929599801 0) noErrors (World.init (constRand 7) emptyDisk))
      = .ok ((List.range' 0 64).map some)
        (stagedWorld (plainFlags 76480200929599801 0) (constRand 7)) ∧
    ((List.range' 0 64).map some : List Ptr).length = 64 ∧
    ¬ ((64 : Int) = (plainFlags 76480200929599801 0).numKeys * 1000000) ∧
    ∃ w', main (plainFlags 76480200929599801 0) noErrors (World.init (constRand 7) emptyDisk)
        = .ok () w' ∧ w'.heap.length = 64 := by
  refine ⟨by decide, ?_, by simp, by decide, ?_⟩
  · exact mainAlloc_eq (plainFlags 76480200929599801 0) (by decide) (by decide)
      (Or.inr ⟨by decide, by decide⟩) _
  · obtain ⟨w', hw⟩ := main_total (plainFlags 76480200929599801 0) noErrors (constRand 7)
      emptyDisk (by intro e he; cases he) (by decide) (by decide)
      (Or.inr ⟨by decide, by decide⟩)
    obtain ⟨_, _, _, hlen, _⟩ := main_ok_inv _ _ _ _ w' hw
    exact ⟨w', hw, by rw [hlen]; decide⟩

/-- C2 (amended): for every run in which the product `N * 1,000,000` fits the
64-bit `int` (it does not wrap), the entry sequence `main` builds has exactly
`N * 1,000,000` entries, `createEntries` fills them all, and afterwards every
entry's value has length exactly `S`. -/
theorem entries_count_and_value_size (fl : Flags) (w w1 : World) (entries : List Ptr)
    (hfit0 : -(2 ^ 63) ≤ fl.numKeys * 1000000) (hfit1 : fl.numKeys * 1000000 < 2 ^ 63)
    (h : mainAlloc fl w = .ok entries w1) :
    (entries.length : Int) = fl.numKeys * 1000000 ∧
      ∃ rb w2, createEntries fl entries w1 = .ok rb w2 ∧
        ∀ p ∈ entries, ∃ e, load p w2 = .ok e w2 ∧ (e.Value.len : Int) = fl.valueSize ∧
          (e.Value.bytes.length : Int) = fl.valueSize := by
  obtain ⟨h0, h1, hS⟩ := mainAlloc_ok_inv fl w w1 entries h
  have hL : numEntries fl = fl.numKeys * 1000000 := by
    unfold numEntries imul
    exact wrapInt_eq _ hfit0 hfit1
  rw [mainAlloc_eq fl h0 h1 hS w] at h
  simp only [Res.ok.injEq] at h
  obtain ⟨hent, hw1⟩ := h
  subst hent
  subst hw1
  have hbnd : List.range' w.heap.length (numEntries fl).toNat ≠ [] → 0 < intnBound fl := by
    intro hne
    rw [intnBound_eq fl h0 h1]
    have : (numEntries fl).toNat ≠ 0 := by
      intro h0'
      rw [h0'] at hne
      exact hne rfl
    omega
  obtain ⟨w2, hrun, _, _, _, _, _, hlen, _, hin⟩ :=
    createEntries_eq fl (List.range' w.heap.length (numEntries fl).toNat) (allocWorld fl w) hbnd
      (by
        intro a ha
        rw [allocWorld_length]
        rw [List.mem_range'_1] at ha
        omega)
      (List.nodup_range' _ _)
  refine ⟨?_, _, w2, hrun, ?_⟩
  · simp only [List.length_map, List.length_range']
    rw [Int.toNat_of_nonneg h0, hL]
  · intro p hp
    obtain ⟨a, hmem, rfl⟩ := List.mem_map.mp hp
    have hne : numEntries fl ≠ 0 := by
      intro hz
      rw [hz] at hmem
      simp at hmem
    have hS0 : 0 ≤ fl.valueSize := by
      rcases hS with hz | hz
      · exact absurd hz hne
      · exact hz.1
    obtain ⟨ent, w0, e1, e2⟩ := hin a hmem
    obtain ⟨ent2, g1, g2, _⟩ := allocWorld_get fl w a hmem
    rw [g1] at e1
    simp only [Option.some.injEq] at e1
    subst e1
    refine ⟨filledEntry fl ent2 w0, ?_, ?_, ?_⟩
    · simp [load, e2]
    · rw [filledEntry_value_len, g2, Int.toNat_of_nonneg hS0]
    · rw [filledEntry_value_bytes_length, g2, Int.toNat_of_nonneg hS0]

/-- Witness of C2 (amended): `keys_mil = 1`, `valsz = 100`. -/
theorem entries_count_and_value_size_witness :
    (((List.range' 0 (numEntries (plainFlags 1 100)).toNat).map some : List Ptr).length : Int)
        = (plainFlags 1 100).numKeys * 1000000 ∧
      ∃ rb w2, createEntries (plainFlags 1 100)
          ((List.range' 0 (numEntries (plainFlags 1 100)).toNat).map some)
          (stagedWorld (plainFlags 1 100) (constRand 7)) = .ok rb w2 ∧
        ∀ p ∈ (List.range' 0 (numEntries (plainFlags 1 100)).toNat).map some,
          ∃ e, load p w2 = .ok e w2 ∧ (e.Value.len : Int) = (plainFlags 1 100).valueSize ∧
            (e.Value.bytes.length : Int) = (plainFlags 1 100).valueSize :=
  entries_count_and_value_size (plainFlags 1 100)
    (setupWorld (plainFlags 1 100) noErrors (World.init (constRand 7) emptyDisk))
    (stagedWorld (plainFlags 1 100) (constRand 7)) _ (by decide) (by decide)
    (mainAlloc_eq (plainFlags 1 100) (by decide) (by decide) (Or.inr ⟨by decide, by decide⟩) _)

/-- C8: every call of `fillEntry` on an entry allocated by `main` returns:
whenever the allocation block of `main` has returned its entries,
`createEntries` runs to its end on them, and for each of these entries the
bound handed to `rand.Intn` is strictly positive and `fillEntry` on it
returns in every state that still holds the allocated entries (so the
re-slicing and the copy stay within capacity). This covers every
configuration with `keys_mil ≥ 1` and `valsz ≥ 0`. -/
theorem fillEntry_never_fails (fl : Flags) (w w1 : World) (entries : List Ptr)
    (h : mainAlloc fl w = .ok entries w1) :
    (∃ rb w2, createEntries fl entries w1 = .ok rb w2) ∧
      ∀ p ∈ entries, 0 < intnBound fl ∧
        ∀ w2 : World, w2.heap.length = w1.heap.length → ∃ w3, fillEntry fl p w2 = .ok () w3 := by
  obtain ⟨h0, h1, hS⟩ := mainAlloc_ok_inv fl w w1 entries h
  rw [mainAlloc_eq fl h0 h1 hS w] at h
  simp only [Res.ok.injEq] at h
  obtain ⟨hent, hw1⟩ := h
  subst hent
  subst hw1
  have hbnd : List.range' w.heap.length (numEntries fl).toNat ≠ [] → 0 < intnBound fl := by
    intro hne
    rw [intnBound_eq fl h0 h1]
    have : (numEntries fl).toNat ≠ 0 := by
      intro h0'
      rw [h0'] at hne
      exact hne rfl
    omega
  constructor
  · obtain ⟨w2, hrun, _⟩ :=
      createEntries_eq fl (List.range' w.heap.length (numEntries fl).toNat) (allocWorld fl w) hbnd
        (by
          intro a ha
          rw [allocWorld_length]
          rw [List.mem_range'_1] at ha
          omega)
        (List.nodup_range' _ _)
    exact ⟨_, w2, hrun⟩
  · intro p hp
    obtain ⟨a, hmem, rfl⟩ := List.mem_map.mp hp
    have hpos : 0 < intnBound fl := hbnd (List.ne_nil_of_mem hmem)
    refine ⟨hpos, ?_⟩
    intro w2 hlen
    have ha : a < w2.heap.length := by
      rw [hlen, allocWorld_length]
      rw [List.mem_range'_1] at hmem
      omega
    exact ⟨_, fillEntry_eq fl a w2 w2.heap[a] (List.getElem?_eq_getElem ha) hpos⟩

/-- Witness of C8: `keys_mil = 1`, `valsz = 0`. -/
theorem fillEntry_never_fails_witness :
    (∃ rb w2, createEntries (plainFlags 1 0)
        ((List.range' 0 (numEntries (plainFlags 1 0)).toNat).map some)
        (stagedWorld (plainFlags 1 0) (constRand 7)) = .ok rb w2) ∧
      ∀ p ∈ (List.range' 0 (numEntries (plainFlags 1 0)).toNat).map some,
        0 < intnBound (plainFlags 1 0) ∧
        ∀ w2 : World, w2.heap.length = (stagedWorld (plainFlags 1 0) (constRand 7)).heap.length →
          ∃ w3, fillEntry (plainFlags 1 0) p w2 = .ok () w3 :=
  fillEntry_never_fails (plainFlags 1 0)
    (setupWorld (plainFlags 1 0) noErrors (World.init (constRand 7) emptyDisk))
    (stagedWorld (plainFlags 1 0) (constRand 7)) _
    (mainAlloc_eq (plainFlags 1 0) (by decide) (by decide) (Or.inr ⟨by decide, by decide⟩) _)

/-! ## Claims about the whole run -/

theorem range_map_kvAt (heap : List Entry) :
    (List.range heap.length).map (kvAt heap) = heapPairs heap := by
  apply List.ext_getElem
  · simp [heapPairs]
  · intro i h1 h2
    simp only [List.length_map, List.length_range] at h1
    simp [heapPairs, kvAt, h1]

theorem main_trace (fl : Flags) (env : Env) (rand : Rand) (disk : String → Option Store)
    (w' : World) (h : main fl env (World.init rand disk) = .ok () w') :
    w'.trace = fullTrace fl (heapPairs w'.heap) ∧ (w'.heap.length : Int) < 2 ^ 46 := by
  obtain ⟨h0, h1, _, hlen, htr, _⟩ := main_ok_inv fl env rand disk w' h
  rw [← hlen, range_map_kvAt] at htr
  refine ⟨htr, ?_⟩
  rw [hlen]
  unfold maxAlloc at h1
  omega

theorem printedCounts_fullTrace (fl : Flags) (kvs : List (List Byte × List Byte)) :
    printedCounts (fullTrace fl kvs) =
      [scanLoop (omPutAll [] kvs) 0, scanLoop (omPutAll [] kvs) 0] := by
  by_cases hc : fl.cpuprofile = "" <;> by_cases hm : fl.memprofile = "" <;>
    simp [printedCounts, fullTrace, setupTrace, rocksTrace, badgerTrace, memTrace, hc, hm]

theorem scanLoop_omPutAll (kvs : List (List Byte × List Byte)) (h : (kvs.length : Int) < 2 ^ 46) :
    scanLoop (omPutAll [] kvs) 0 = ((kvs.map Prod.fst).dedup.length : Int) := by
  have hle : (kvs.map Prod.fst).dedup.length ≤ kvs.length := by
    have := (List.dedup_sublist (kvs.map Prod.fst)).length_le
    simpa using this
  have hl := omPutAll_length kvs
  rw [scanLoop_eq _ 0 (by norm_num) (by rw [hl]; omega), hl]
  simp

/-- C4: in every run of `main` that returns (by `main_total`, every run in
which no checked call fails and the allocations are accepted), both
`Num unique keys` lines print the number of distinct keys among the generated
entries (the second count starts again from zero); that number is at most the
number of entries and equals it exactly when no two entries share a key.
Nothing a previous run left in the directories is counted. -/
theorem unique_key_counts (fl : Flags) (env : Env) (rand : Rand)
    (disk : String → Option Store) (w' : World)
    (h : main fl env (World.init rand disk) = .ok () w') :
    printedCounts w'.trace =
        [(((w'.heap.map fun e => e.Key.bytes).dedup.length : Nat) : Int),
          (((w'.heap.map fun e => e.Key.bytes).dedup.length : Nat) : Int)] ∧
      (w'.heap.map fun e => e.Key.bytes).dedup.length ≤ w'.heap.length ∧
      ((w'.heap.map fun e => e.Key.bytes).dedup.length = w'.heap.length ↔
        (w'.heap.map fun e => e.Key.bytes).Nodup) := by
  obtain ⟨htr, hlt⟩ := main_trace fl env rand disk w' h
  have hkeys : (heapPairs w'.heap).map Prod.fst = w'.heap.map fun e => e.Key.bytes := by
    simp [heapPairs]
  have hsub := List.dedup_sublist (w'.heap.map fun e => e.Key.bytes)
  refine ⟨?_, ?_, ?_⟩
  · rw [htr, printedCounts_fullTrace, scanLoop_omPutAll _ (by simpa [heapPairs] using hlt), hkeys]
  · simpa using hsub.length_le
  · constructor
    · intro hl
      have := hsub.eq_of_length (by simpa using hl)
      rw [← this]
      exact List.nodup_dedup _
    · intro hnd
      rw [List.dedup_eq_self.mpr hnd]
      simp

/-- Witness of C4: the run with `keys_mil = 1` in which no call fails, over
directories a previous run had filled. -/
theorem unique_key_counts_witness :
    ∃ w', main (plainFlags 1 0) noErrors
        (World.init (constRand 7) (fun _ => some [([1], [2])])) = .ok () w' ∧
      printedCounts w'.trace =
        [(((w'.heap.map fun e => e.Key.bytes).dedup.length : Nat) : Int),
          (((w'.heap.map fun e => e.Key.bytes).dedup.length : Nat) : Int)] ∧
      (w'.heap.map fun e => e.Key.bytes).dedup.length ≤ w'.heap.length ∧
      ((w'.heap.map fun e => e.Key.bytes).dedup.length = w'.heap.length ↔
        (w'.heap.map fun e => e.Key.bytes).Nodup) := by
  obtain ⟨w', hw⟩ := main_total (plainFlags 1 0) noErrors (constRand 7)
    (fun _ => some [([1], [2])]) (by intro e he; cases he) (by decide) (by decide)
    (Or.inr ⟨by decide, by decide⟩)
  exact ⟨w', hw, unique_key_counts _ _ _ _ w' hw⟩

/-- C6: in every run of `main` that returns (such runs exist by `main_total`),
the puts `createEntries` staged in the RocksDB write batch are, pair by pair
and in the same order, the key/value pairs the entries hold when `main` hands
them to `bdg.BatchSet`, and still hold at the end of the run: one batch and
one bulk set are issued, with the same pairs. -/
theorem both_engines_load_the_same_pairs (fl : Flags) (env : Env) (rand : Rand)
    (disk : String → Option Store) (w' : World)
    (h : main fl env (World.init rand disk) = .ok () w') :
    rocksLoads w'.trace = [heapPairs w'.heap] ∧ badgerLoads w'.trace = [heapPairs w'.heap] := by
  obtain ⟨htr, _⟩ := main_trace fl env rand disk w' h
  rw [htr]
  by_cases hc : fl.cpuprofile = "" <;> by_cases hm : fl.memprofile = "" <;>
    simp [rocksLoads, badgerLoads, fullTrace, setupTrace, rocksTrace, badgerTrace, memTrace, hc, hm]

/-- Witness of C6: the run with `keys_mil = 1`, `valsz = 100` in which no
call fails. -/
theorem both_engines_load_the_same_pairs_witness :
    ∃ w', main (plainFlags 1 100) noErrors (World.init (constRand 7) emptyDisk) = .ok () w' ∧
      rocksLoads w'.trace = [heapPairs w'.heap] ∧ badgerLoads w'.trace = [heapPairs w'.heap] := by
  obtain ⟨w', hw⟩ := main_total (plainFlags 1 100) noErrors (constRand 7) emptyDisk
    (by intro e he; cases he) (by decide) (by decide) (Or.inr ⟨by decide, by decide⟩)
  exact ⟨w', hw, both_engines_load_the_same_pairs _ _ _ _ w' hw⟩

/-- C7: in every run of `main` that returns (a run with no error; such runs
exist by `main_total`), the driver's effects are, each once and in this
order: options initialised, `tmp/badger` removed and recreated, `tmp/rocks`
removed and recreated, entries generated, RocksDB loaded, scanned, closed,
Badger loaded, scanned, the memory profile written (exactly when `memprofile`
is set), Badger closed. Each directory is removed before the engine stored in
it is opened, and no call operates on an engine after the call that closed
it. -/
theorem effects_in_order (fl : Flags) (env : Env) (rand : Rand)
    (disk : String → Option Store) (w' : World)
    (h : main fl env (World.init rand disk) = .ok () w') :
    w'.trace.filterMap effectOf =
        [.optionsInitialised, .removed "tmp/badger", .recreated "tmp/badger",
          .removed "tmp/rocks", .recreated "tmp/rocks", .entriesGenerated,
          .loadedA, .scannedA, .closedA, .loadedB, .scannedB] ++
        (if fl.memprofile ≠ "" then [.memProfileWritten] else []) ++ [.closedB] ∧
      .removeAll "tmp/badger" ∈ callsBefore .newKV w'.trace ∧
      .removeAll "tmp/rocks" ∈ callsBefore .newStore w'.trace ∧
      (∀ e ∈ callsAfter .rocksClose w'.trace, engineOf e ≠ some .rocksdb) ∧
      (∀ e ∈ callsAfter .bdgClose w'.trace, engineOf e ≠ some .badger) := by
  obtain ⟨htr, _⟩ := main_trace fl env rand disk w' h
  rw [htr]
  by_cases hc : fl.cpuprofile = "" <;> by_cases hm : fl.memprofile = "" <;>
    simp [effectOf, engineOf, callsBefore, callsAfter, fullTrace, setupTrace, rocksTrace,
      badgerTrace, memTrace, hc, hm, List.takeWhile, List.dropWhile]

/-- Witness of C7: the run with `keys_mil = 1` and a memory profile in which
no call fails. -/
theorem effects_in_order_witness :
    ∃ w', main { numKeys := 1, valueSize := 0, cpuprofile := "", memprofile := "mem.prof" }
        noErrors (World.init (constRand 7) emptyDisk) = .ok () w' ∧
      w'.trace.filterMap effectOf =
        [.optionsInitialised, .removed "tmp/badger", .recreated "tmp/badger",
          .removed "tmp/rocks", .recreated "tmp/rocks", .entriesGenerated,
          .loadedA, .scannedA, .closedA, .loadedB, .scannedB, .memProfileWritten, .closedB] := by
  obtain ⟨w', hw⟩ := main_total
    { numKeys := 1, valueSize := 0, cpuprofile := "", memprofile := "mem.prof" } noErrors
    (constRand 7) emptyDisk (by intro e he; cases he) (by decide) (by decide)
    (Or.inr ⟨by decide, by decide⟩)
  have h := (effects_in_order _ _ _ _ w' hw).1
  exact ⟨w', hw, by simpa using h⟩

/-- C5 (the code at the failing input): when `os.MkdirAll("tmp/badger", 0777)`
returns an error, `main` does not stop at that step: it goes on to call
`badger.NewKV`, which fails on the absent directory, and the run stops only
at the check of `NewKV`. -/
theorem mkdirAll_error_is_not_fatal :
    mkdirFails (.mkdirAll "tmp/badger") = true ∧ mkdirFails .newKV = false ∧
      ∃ w', main (plainFlags 1 0) mkdirFails (World.init (constRand 7) emptyDisk)
          = .stop (.fatal "y.Check") w' ∧
        w'.trace = [.flagParse, .randSeed, .initOptions, .removeAll "tmp/badger",
          .mkdirAll "tmp/badger", .newKV] ∧
        callsAfter (.mkdirAll "tmp/badger") w'.trace = [.newKV] := by
  refine ⟨rfl, rfl, ?_⟩
  simp [main, mainBody, mainSetup, startProfile, resetAndOpen, Run.bind, emit, Check, halt,
    RemoveAll, MkdirAll, NewKV, mkdirFails, plainFlags, World.init, emptyDisk, callsAfter,
    List.dropWhile]

end BadgerBench
